import Mathlib

/-!
Verification of the Bergfrid delivery-orchestration core.

The definitions below are a shallow embedding of the Python source:
- `src/core/state.py`   (StateStore: load / save / sent_has / sent_add),
- `src/core/monitoring.py` (HealthMonitor.is_in_cooldown),
- `src/core/rss.py`     (feed_to_backlog),
- `src/main.py`         (bergfrid_watcher, _seed_state_from_entries,
                         _catchup_missing_platforms).

Modelling conventions:
- Feed entries are represented by their stable identifiers (strings): the
  dispatcher only ever consumes `entry_to_article(entry).id`.
- The dispatcher works on a typed view of the ledger dict
  (`TState`: the `last_id` field and the per-platform `sent` lists); the
  dynamically-typed JSON shape of the persisted file is modelled separately
  (`PyVal`) for the `StateStore.load` claims.
- `state_store.save` persists and, as its in-memory side effect, truncates
  every platform's sent list; that truncation is the part modelled here
  (`saveState`).  Python's `lst[-n:]` slice is modelled including its
  `n = 0` behaviour (`-0` slices the whole list).
- A destination is a platform that has a configured publisher
  (`discord` and `telegram` always exist; `twitter`, `mastodon`, `bluesky`
  when their credentials are set -- the `optionalPubs` parameter).  The
  publish outcome of one tick is a function `pubRes : platform -> id -> Bool`.
- Every call to a publisher's `publish` is recorded as a `Call` holding the
  ledger state at the moment of the call.
- Wall-clock instants (`time.monotonic()`) are modelled as natural-number
  seconds; the cooldown cap (a float count of minutes) as a natural number.
-/

namespace Bergfrid

/-- `StateStore.PLATFORMS` (src/core/state.py line 36). -/
def PLATFORMS : List String := ["discord", "telegram", "twitter", "mastodon", "bluesky"]

/-- Python `lst[-n:]` on a list of strings: for `n = 0` this is the whole
list (Python's `-0 == 0` quirk), otherwise the last `n` elements. -/
def pySliceLast (n : Nat) (l : List String) : List String :=
  if n = 0 then l else l.drop (l.length - n)

/-- The typed view of the ledger used by the dispatcher: the `last_id`
cursor and the per-platform `sent` lists (platforms not present in the
dict are read as `[]`, matching `state.get("sent", {}).get(p, [])`). -/
structure TState where
  lastId : Option String
  sent : String → List String

/-- Replace platform `p`'s sent list. -/
def updateSent (s : TState) (p : String) (l : List String) : TState :=
  { s with sent := fun q => if q = p then l else s.sent q }

/-- `StateStore.sent_has` (src/core/state.py lines 117-119):
membership of `e` in platform `p`'s sent list. -/
def sentHas (s : TState) (p e : String) : Bool :=
  decide (e ∈ s.sent p)

/-- `StateStore.sent_add` (src/core/state.py lines 121-127): append `e`
if absent, then truncate to the last `ringMax` entries when the list
exceeds `ringMax` (via the Python slice `lst[-ringMax:]`). -/
def sentAdd (ringMax : Nat) (s : TState) (p e : String) : TState :=
  let l := s.sent p
  let l1 := if e ∈ l then l else l ++ [e]
  let l2 := if ringMax < l1.length then pySliceLast ringMax l1 else l1
  updateSent s p l2

/-- The in-memory effect of `StateStore.save` (src/core/state.py lines
93-99): every platform of `PLATFORMS` whose sent list exceeds the ring
maximum is truncated to its last `ringMax` entries (again via
`lst[-ringMax:]`); other keys are left alone. -/
def saveState (ringMax : Nat) (s : TState) : TState :=
  { s with
    sent := fun p =>
      if p ∈ PLATFORMS then
        (if ringMax < (s.sent p).length then pySliceLast ringMax (s.sent p) else s.sent p)
      else s.sent p }

/-- The tick's environment: the `enabled` list from the targets config,
the optional platforms that have configured publishers, this tick's
publish outcomes, and the tunables. -/
structure Env where
  enabled : List String
  optionalPubs : List String
  pubRes : String → String → Bool
  ringMax : Nat
  maxBacklog : Nat

/-- Iteration order of the publishers: `discord`, `telegram`, then the
configured optional publishers (`_optional_publishers` dict order). -/
def pubNames (env : Env) : List String :=
  "discord" :: "telegram" :: env.optionalPubs

/-- The enabled destinations: configured publishers that appear in the
`enabled` list. -/
def enabledDests (env : Env) : List String :=
  (pubNames env).filter (fun p => decide (p ∈ env.enabled))

/-- One recorded `publish` call: the platform, the entry id, and the
ledger state at the moment of the call. -/
structure Call where
  platform : String
  eid : String
  atState : TState

/-- Python truthiness of `state.get("last_id")`: `None` and `""` are falsy. -/
def falsyId : Option String → Bool
  | none => true
  | some s => decide (s = "")

/-- `feed_to_backlog` (src/core/rss.py lines 120-128) on entry ids:
collect entries until one equals `lastSeen` (exclusive). -/
def feedToBacklog : List String → String → List String
  | [], _ => []
  | e :: rest, lastSeen =>
    if e = lastSeen then [] else e :: feedToBacklog rest lastSeen

/-- The per-platform body of the backlog loop (src/main.py lines
544-597): for each platform, if it is enabled and has not marked the
item sent, call `publish`; on success `sent_add` + `save`, on failure
clear the `all_ok` flag. -/
def processPlats (env : Env) (e : String) :
    List String → TState → List Call → Bool → TState × List Call × Bool
  | [], st, calls, allOk => (st, calls, allOk)
  | p :: rest, st, calls, allOk =>
    if p ∈ env.enabled ∧ sentHas st p e = false then
      if env.pubRes p e then
        processPlats env e rest (saveState env.ringMax (sentAdd env.ringMax st p e))
          (calls ++ [⟨p, e, st⟩]) allOk
      else
        processPlats env e rest st (calls ++ [⟨p, e, st⟩]) false
    else
      processPlats env e rest st calls allOk

/-- Processing of one backlog item across all publishers. -/
def processItem (env : Env) (st : TState) (e : String) : TState × List Call × Bool :=
  processPlats env e (pubNames env) st [] true

/-- The backlog loop of `bergfrid_watcher` (src/main.py lines 537-615),
over the oldest-to-newest item list: process the item; if `all_ok`,
advance `last_id` to the item and `save`, then continue; otherwise stop
(the Python `return` at line 612).  The final `Bool` records whether the
loop ran to completion. -/
def runBacklog (env : Env) : List String → TState → TState × List Call × Bool
  | [], st => (st, [], true)
  | e :: rest, st =>
    let r := processItem env st e
    if r.2.2 then
      let st2 := saveState env.ringMax { r.1 with lastId := some e }
      let r2 := runBacklog env rest st2
      (r2.1, r.2.1 ++ r2.2.1, r2.2.2)
    else
      (r.1, r.2.1, false)

/-- `CATCHUP_WINDOW` (src/main.py line 625). -/
def CATCHUP_WINDOW : Nat := 5

/-- The per-platform body of `_catchup_missing_platforms` (src/main.py
lines 637-664): skip disabled platforms, skip platforms that already
marked the item sent, skip unless some other configured publisher
(enabled or not) has marked it sent; otherwise call `publish` and on
success `sent_add` + `save`. -/
def catchupPlats (env : Env) (e : String) :
    List String → TState → List Call → TState × List Call
  | [], st, calls => (st, calls)
  | p :: rest, st, calls =>
    if p ∈ env.enabled ∧ sentHas st p e = false ∧
        ((pubNames env).any fun o => !(o == p) && sentHas st o e) = true then
      if env.pubRes p e then
        catchupPlats env e rest (saveState env.ringMax (sentAdd env.ringMax st p e))
          (calls ++ [⟨p, e, st⟩])
      else
        catchupPlats env e rest st (calls ++ [⟨p, e, st⟩])
    else
      catchupPlats env e rest st calls

/-- The entry loop of `_catchup_missing_platforms`. -/
def catchupEntries (env : Env) : List String → TState → List Call → TState × List Call
  | [], st, calls => (st, calls)
  | e :: rest, st, calls =>
    let r := catchupPlats env e (pubNames env) st calls
    catchupEntries env rest r.1 r.2

/-- `_catchup_missing_platforms` (src/main.py lines 628-664): scan the
first `CATCHUP_WINDOW` feed entries. -/
def catchup (env : Env) (st : TState) (entries : List String) : TState × List Call :=
  catchupEntries env (entries.take CATCHUP_WINDOW) st []

/-- `_seed_state_from_entries` (src/main.py lines 463-486): mark every
visible entry as sent on every enabled configured platform, set
`last_id` to the newest entry's id, then `save`.  Makes no publish
calls. -/
def seed (env : Env) (st : TState) (entries : List String) : TState :=
  let st1 := entries.foldl
    (fun s e => (enabledDests env).foldl (fun s2 p => sentAdd env.ringMax s2 p e) s) st
  let st2 := match entries with
    | [] => st1
    | e :: _ => { st1 with lastId := some e }
  saveState env.ringMax st2

/-- One tick of `bergfrid_watcher` (src/main.py lines 497-618), given
the already-fetched feed entry ids (newest first).  Returns the final
ledger state and the ordered log of `publish` calls. -/
def bergfridWatcher (env : Env) (st0 : TState) (entries : List String) :
    TState × List Call :=
  let st := saveState env.ringMax st0
  if entries.isEmpty then (st, [])
  else if falsyId st.lastId then (seed env st entries, [])
  else
    let backlog := feedToBacklog entries (st.lastId.getD "")
    if backlog.isEmpty = false ∧ backlog.length = entries.length then
      (seed env st entries, [])
    else if backlog.isEmpty then catchup env st entries
    else
      let r := runBacklog env ((backlog.take env.maxBacklog).reverse) st
      if r.2.2 then
        let r2 := catchup env r.1 entries
        (r2.1, r.2.1 ++ r2.2)
      else
        (r.1, r.2.1)

/-! The dynamically-typed model of the persisted ledger, for
`StateStore.load` / `StateStore._normalize` (src/core/state.py).
Python/JSON values are modelled by `PyVal`; the only uncaught exception
reachable from `load` is the `AttributeError` raised when
`_normalize` calls `.setdefault` on a non-dict `sent` value. -/

/-- A Python value, as far as JSON-decoded ledger content is concerned. -/
inductive PyVal where
  | pnull
  | pbool (b : Bool)
  | pint (n : Int)
  | pstr (s : String)
  | plist (xs : List PyVal)
  | pdict (kvs : List (String × PyVal))

/-- The uncaught exception of interest. -/
inductive PyErr where
  | attributeError

/-- Python dict lookup on the association-list model (first binding wins;
the model only builds dicts with distinct keys, as `dict` does). -/
def dictGet (kvs : List (String × PyVal)) (k : String) : Option PyVal :=
  (kvs.find? (fun kv => kv.1 == k)).map (fun kv => kv.2)

/-- Python `dict.setdefault(k, v)`: insert `(k, v)` at the end when `k`
is absent, otherwise leave the dict unchanged. -/
def dictSetDefault (kvs : List (String × PyVal)) (k : String) (v : PyVal) :
    List (String × PyVal) :=
  if (dictGet kvs k).isSome then kvs else kvs ++ [(k, v)]

/-- Python `d[k] = v` for a key known to be present: update in place. -/
def dictSet (kvs : List (String × PyVal)) (k : String) (v : PyVal) :
    List (String × PyVal) :=
  kvs.map (fun kv => if kv.1 == k then (k, v) else kv)

/-- `StateStore._normalize` (src/core/state.py lines 54-61): default the
three scalar keys and `sent` to `{}` when absent, then `setdefault` each
platform inside `sent` to `[]`.  When the stored `sent` value is not a
dict, `data["sent"].setdefault(...)` raises `AttributeError`, which no
caller catches. -/
def normDefaults (kvs : List (String × PyVal)) : List (String × PyVal) :=
  dictSetDefault (dictSetDefault (dictSetDefault (dictSetDefault kvs
    "last_id" .pnull) "etag" .pnull) "modified" .pnull) "sent" (.pdict [])

def normalize (kvs : List (String × PyVal)) : Except PyErr (List (String × PyVal)) :=
  match dictGet (normDefaults kvs) "sent" with
  | some (.pdict skvs) =>
    .ok (dictSet (normDefaults kvs) "sent" (.pdict (PLATFORMS.foldl
      (fun acc p => dictSetDefault acc p (.plist [])) skvs)))
  | _ => .error .attributeError

/-- `StateStore._empty_state` (src/core/state.py lines 46-52). -/
def emptyState : PyVal :=
  .pdict [("last_id", .pnull), ("etag", .pnull), ("modified", .pnull),
          ("sent", .pdict (PLATFORMS.map (fun p => (p, .plist []))))]

/-- What reading the local state file produced. -/
inductive FileRead where
  /-- `os.path.exists` is false. -/
  | missing
  /-- the read raised `OSError` (caught). -/
  | readFailed
  /-- `json.load` raised `JSONDecodeError` (caught). -/
  | badJson
  /-- the file parsed to this value. -/
  | parsed (v : PyVal)

/-- The fallback half of `StateStore.load` (src/core/state.py lines
77-91): with a configured Gist whose pull returned a truthy dict,
normalize and return it (an `AttributeError` from `_normalize`
propagates here too); otherwise return a fresh empty state.
`gist = none` covers both an unconfigured Gist sync and a failed pull. -/
def loadFallback (gist : Option (List (String × PyVal))) : Except PyErr PyVal :=
  match gist with
  | some kvs =>
    if kvs.isEmpty then .ok emptyState
    else (normalize kvs).map .pdict
  | none => .ok emptyState

/-- `StateStore.load` (src/core/state.py lines 63-91): a parsed dict is
normalized and returned (`_normalize` runs inside the `try`, but its
`AttributeError` is not among the caught exception types, so it
propagates); a missing/unreadable/corrupt file or a non-dict value falls
back to the Gist or to a fresh empty state. -/
def load (file : FileRead) (gist : Option (List (String × PyVal))) :
    Except PyErr PyVal :=
  match file with
  | .parsed (.pdict kvs) => (normalize kvs).map .pdict
  | .parsed _ => loadFallback gist
  | .missing => loadFallback gist
  | .readFailed => loadFallback gist
  | .badJson => loadFallback gist

/-- The cooldown window of `HealthMonitor.is_in_cooldown`
(src/core/monitoring.py line 53), in seconds:
`min(failures * 120, cooldown_max_minutes * 60)`. -/
def cooldownSec (failures capMinutes : Nat) : Nat :=
  min (failures * 120) (capMinutes * 60)

/-- `HealthMonitor.is_in_cooldown` (src/core/monitoring.py lines 44-62):
below the alert threshold or with no recorded failure time, `false`;
otherwise `true` exactly while the elapsed time since the last failure
is below the cooldown window. -/
def isInCooldown (alertThreshold capMinutes failures : Nat)
    (lastAttempt : Option Nat) (now : Nat) : Bool :=
  if failures < alertThreshold then false
  else
    match lastAttempt with
    | none => false
    | some last => decide (now - last < cooldownSec failures capMinutes)

/-! ### Concrete instances used in witnesses and counterexamples -/

instance : Inhabited Call := ⟨⟨"", "", ⟨none, fun _ => []⟩⟩⟩

/-- An environment where every publish succeeds: discord and telegram
enabled, no optional publishers, ring 50, backlog cap 20. -/
def envU : Env :=
  { enabled := ["discord", "telegram"], optionalPubs := [],
    pubRes := fun _ _ => true, ringMax := 50, maxBacklog := 20 }

/-- An environment where discord succeeds and telegram fails. -/
def envF : Env :=
  { enabled := ["discord", "telegram"], optionalPubs := [],
    pubRes := fun p _ => p == "discord", ringMax := 50, maxBacklog := 20 }

/-- A ledger with cursor at item `a` and empty sent sets. -/
def stA : TState := ⟨some "a", fun _ => []⟩

/-- A fresh (cold-start) ledger: no cursor, empty sent sets. -/
def stCold : TState := ⟨none, fun _ => []⟩

/-- Feed snapshot: item `b` (new) then item `a` (the cursor), newest first. -/
def entsBA : List String := ["b", "a"]

/-- An environment with only telegram enabled (discord is configured but
disabled). -/
def envTg : Env :=
  { enabled := ["telegram"], optionalPubs := [],
    pubRes := fun _ _ => true, ringMax := 50, maxBacklog := 20 }

/-- A ledger whose cursor is at `e1`, where only the (now disabled)
discord platform has `e1` in its sent set. -/
def stC6 : TState :=
  ⟨some "e1", fun p => if p = "discord" then ["e1"] else []⟩

/-- Feed snapshot holding just `e1`. -/
def entsE1 : List String := ["e1"]

/-- A ledger whose discord sent list holds one entry. -/
def stC7 : TState := ⟨none, fun p => if p = "discord" then ["a"] else []⟩

/-- A ledger whose discord sent list holds three entries. -/
def stC7w : TState := ⟨none, fun p => if p = "discord" then ["a", "b", "c"] else []⟩

/-- A state file whose `sent` field is a JSON array instead of an
object: valid JSON, a dict at top level, malformed by the schema. -/
def fileC8 : FileRead := .parsed (.pdict [("sent", .plist [])])

/-- A state file whose `sent.discord` entry is the number 42 instead of
a list. -/
def fileC10 : FileRead := .parsed (.pdict [("sent", .pdict [("discord", .pint 42)])])

/-- What `load` returns for `fileC10`: the three scalar keys are
defaulted and the four missing platforms added, but `discord` keeps the
stored non-list value. -/
def vC10 : PyVal :=
  .pdict [("sent", .pdict [("discord", .pint 42), ("telegram", .plist []),
            ("twitter", .plist []), ("mastodon", .plist []), ("bluesky", .plist [])]),
          ("last_id", .pnull), ("etag", .pnull), ("modified", .pnull)]

/-- Is a Python value a list? -/
def isPlist : PyVal → Bool
  | .plist _ => true
  | _ => false

/-- Field access `sent[p]` on a loaded ledger value. -/
def sentEntry (v : PyVal) (p : String) : Option PyVal :=
  match v with
  | .pdict kvs =>
    match dictGet kvs "sent" with
    | some (.pdict skvs) => dictGet skvs p
    | _ => none
  | _ => none

/-! ### Dictionary lemmas for the `load` model -/

theorem dictGet_cons_pos (kv : String × PyVal) (rest : List (String × PyVal))
    (k : String) (h : (kv.1 == k) = true) : dictGet (kv :: rest) k = some kv.2 := by
  unfold dictGet
  simp [List.find?_cons, h]

theorem dictGet_cons_neg (kv : String × PyVal) (rest : List (String × PyVal))
    (k : String) (h : ¬ (kv.1 == k) = true) : dictGet (kv :: rest) k = dictGet rest k := by
  unfold dictGet
  simp only [List.find?_cons, h, cond_false, Bool.not_eq_true] at *

theorem dictGet_append_single_self (kvs : List (String × PyVal)) (k : String) (v : PyVal)
    (h : dictGet kvs k = none) : dictGet (kvs ++ [(k, v)]) k = some v := by
  induction kvs with
  | nil => simp [dictGet]
  | cons kv rest ih =>
    by_cases hk : (kv.1 == k) = true
    · rw [dictGet_cons_pos kv rest k hk] at h
      exact absurd h (by simp)
    · rw [dictGet_cons_neg kv rest k hk] at h
      rw [List.cons_append, dictGet_cons_neg kv (rest ++ [(k, v)]) k hk]
      exact ih h

theorem dictGet_append_single_other (kvs : List (String × PyVal)) (k k' : String)
    (v : PyVal) (hne : ¬ k = k') : dictGet (kvs ++ [(k, v)]) k' = dictGet kvs k' := by
  induction kvs with
  | nil =>
    have : ¬ ((k, v).1 == k') = true := by simpa using hne
    simpa [dictGet] using dictGet_cons_neg (k, v) [] k' this
  | cons kv rest ih =>
    by_cases hk : (kv.1 == k') = true
    · rw [List.cons_append, dictGet_cons_pos kv _ k' hk, dictGet_cons_pos kv _ k' hk]
    · rw [List.cons_append, dictGet_cons_neg kv _ k' hk, dictGet_cons_neg kv _ k' hk]
      exact ih

theorem dictGet_setDefault_isSome (kvs : List (String × PyVal)) (k : String) (v : PyVal) :
    (dictGet (dictSetDefault kvs k v) k).isSome := by
  unfold dictSetDefault
  cases hh : dictGet kvs k with
  | none => simp [hh, dictGet_append_single_self kvs k v hh]
  | some w => simp [hh]

theorem dictGet_setDefault_preserve (kvs : List (String × PyVal)) (k k' : String)
    (v : PyVal) (h : (dictGet kvs k').isSome) :
    (dictGet (dictSetDefault kvs k v) k').isSome := by
  unfold dictSetDefault
  cases hh : dictGet kvs k with
  | some w => simp only [hh, Option.isSome_some, if_true]; exact h
  | none =>
    simp only [hh, Option.isSome_none, Bool.false_eq_true, if_false]
    by_cases hk : k = k'
    · subst hk
      rw [hh] at h
      simp at h
    · rw [dictGet_append_single_other kvs k k' v hk]
      exact h

theorem dictGet_foldl_setDefault_preserve (ps : List String)
    (kvs : List (String × PyVal)) (p : String) (h : (dictGet kvs p).isSome) :
    (dictGet (ps.foldl (fun acc q => dictSetDefault acc q (.plist [])) kvs) p).isSome := by
  induction ps generalizing kvs with
  | nil => exact h
  | cons q rest ih =>
    simp only [List.foldl_cons]
    exact ih _ (dictGet_setDefault_preserve kvs q p _ h)

theorem dictGet_foldl_setDefault_isSome (ps : List String)
    (kvs : List (String × PyVal)) (p : String) (hp : p ∈ ps) :
    (dictGet (ps.foldl (fun acc q => dictSetDefault acc q (.plist [])) kvs) p).isSome := by
  induction ps generalizing kvs with
  | nil => cases hp
  | cons q rest ih =>
    rcases List.mem_cons.mp hp with h | h
    · subst h
      simp only [List.foldl_cons]
      exact dictGet_foldl_setDefault_preserve rest _ p (dictGet_setDefault_isSome kvs p _)
    · simp only [List.foldl_cons]
      exact ih _ h

theorem dictGet_dictSet_self (kvs : List (String × PyVal)) (k : String) (v : PyVal)
    (h : (dictGet kvs k).isSome) : dictGet (dictSet kvs k v) k = some v := by
  induction kvs with
  | nil => simp [dictGet] at h
  | cons kv rest ih =>
    unfold dictSet at *
    by_cases hk : (kv.1 == k) = true
    · simp only [List.map_cons]
      rw [if_pos hk]
      exact dictGet_cons_pos (k, v) _ k (by simp)
    · simp only [List.map_cons]
      rw [if_neg hk]
      rw [dictGet_cons_neg kv rest k hk] at h
      rw [dictGet_cons_neg kv _ k hk]
      exact ih h

theorem dictGet_dictSet_other (kvs : List (String × PyVal)) (k k' : String)
    (v : PyVal) (hne : ¬ k = k') : dictGet (dictSet kvs k v) k' = dictGet kvs k' := by
  induction kvs with
  | nil => rfl
  | cons kv rest ih =>
    unfold dictSet at *
    by_cases hk : (kv.1 == k) = true
    · have hk1 : kv.1 = k := by simpa using hk
      have hkv : ¬ (kv.1 == k') = true := by simp [hk1, hne]
      simp only [List.map_cons]
      rw [if_pos hk]
      rw [dictGet_cons_neg (k, v) _ k' (by simpa using hne)]
      rw [dictGet_cons_neg kv rest k' hkv]
      exact ih
    · simp only [List.map_cons]
      rw [if_neg hk]
      by_cases hkv : (kv.1 == k') = true
      · rw [dictGet_cons_pos kv _ k' hkv, dictGet_cons_pos kv rest k' hkv]
      · rw [dictGet_cons_neg kv _ k' hkv, dictGet_cons_neg kv rest k' hkv]
        exact ih

/-- Shape of a successful `_normalize`: all three scalar keys present
and `sent` a dict with an entry for each platform. -/
theorem normalize_ok_shape (kvs kvs2 : List (String × PyVal))
    (h : normalize kvs = .ok kvs2) :
    (dictGet kvs2 "last_id").isSome ∧ (dictGet kvs2 "etag").isSome ∧
    (dictGet kvs2 "modified").isSome ∧
    ∃ skvs, dictGet kvs2 "sent" = some (.pdict skvs) ∧
      ∀ p ∈ PLATFORMS, (dictGet skvs p).isSome := by
  have hlast : (dictGet (normDefaults kvs) "last_id").isSome := by
    unfold normDefaults
    apply dictGet_setDefault_preserve
    apply dictGet_setDefault_preserve
    apply dictGet_setDefault_preserve
    exact dictGet_setDefault_isSome kvs "last_id" .pnull
  have hetag : (dictGet (normDefaults kvs) "etag").isSome := by
    unfold normDefaults
    apply dictGet_setDefault_preserve
    apply dictGet_setDefault_preserve
    exact dictGet_setDefault_isSome _ "etag" .pnull
  have hmod : (dictGet (normDefaults kvs) "modified").isSome := by
    unfold normDefaults
    apply dictGet_setDefault_preserve
    exact dictGet_setDefault_isSome _ "modified" .pnull
  unfold normalize at h
  cases hs : dictGet (normDefaults kvs) "sent" with
  | none =>
    rw [hs] at h
    simp at h
  | some sv =>
    rw [hs] at h
    cases sv with
    | pdict skvs =>
      simp only [Except.ok.injEq] at h
      subst h
      refine ⟨?_, ?_, ?_, ?_⟩
      · rw [dictGet_dictSet_other (normDefaults kvs) "sent" "last_id" _ (by decide)]
        exact hlast
      · rw [dictGet_dictSet_other (normDefaults kvs) "sent" "etag" _ (by decide)]
        exact hetag
      · rw [dictGet_dictSet_other (normDefaults kvs) "sent" "modified" _ (by decide)]
        exact hmod
      · refine ⟨_, dictGet_dictSet_self (normDefaults kvs) "sent" _ (by simp [hs]), ?_⟩
        intro p hp
        exact dictGet_foldl_setDefault_isSome PLATFORMS skvs p hp
    | pnull => simp at h
    | pbool b => simp at h
    | pint n => simp at h
    | pstr s => simp at h
    | plist xs => simp at h

/-! ### Claim theorems: ledger store (`StateStore`) -/

/-- C8 (code bug evidence): `StateStore.load` raises an uncaught
`AttributeError` when the state file holds the valid-JSON dict
`{"sent": []}` -- `_normalize` calls `.setdefault` on the list -- instead
of logging and returning a fresh empty ledger, while a missing file (with
no Gist sync configured) does return the fresh empty ledger. -/
theorem C8_load_raises_on_list_sent :
    load fileC8 none = .error .attributeError ∧
    load .missing none = .ok emptyState := by
  exact ⟨rfl, rfl⟩

/-- C10 counterexample: the claim says every dict returned by
`StateStore.load` has a *list* entry for each of the five platforms, but
for a file storing `{"sent": {"discord": 42}}` the returned dict keeps
the non-list value `42` under `discord`. -/
theorem C10_counterexample :
    load fileC10 none = .ok vC10 ∧
    sentEntry vC10 "discord" = some (.pint 42) ∧
    isPlist (.pint 42) = false := by
  exact ⟨rfl, rfl, rfl⟩

/-- C10 (amended): every dict that `StateStore.load` returns holds the
keys `last_id`, `etag` and `modified`, and a `sent` dict that contains
an entry for each of the five platforms -- so downstream membership
checks and inserts never hit a missing key -- but an entry is a list
only when it was absent from the stored `sent` mapping; a stored
non-list value is preserved as-is. -/
theorem C10_load_shape (file : FileRead) (gist : Option (List (String × PyVal)))
    (v : PyVal) (h : load file gist = .ok v) :
    ∃ kvs, v = .pdict kvs ∧ (dictGet kvs "last_id").isSome ∧
      (dictGet kvs "etag").isSome ∧ (dictGet kvs "modified").isSome ∧
      ∃ skvs, dictGet kvs "sent" = some (.pdict skvs) ∧
        ∀ p ∈ PLATFORMS, (dictGet skvs p).isSome := by
  have hempty : ∀ hv : emptyState = v, ∃ kvs, v = .pdict kvs ∧
      (dictGet kvs "last_id").isSome ∧ (dictGet kvs "etag").isSome ∧
      (dictGet kvs "modified").isSome ∧
      ∃ skvs, dictGet kvs "sent" = some (.pdict skvs) ∧
        ∀ p ∈ PLATFORMS, (dictGet skvs p).isSome := by
    intro hv
    refine ⟨_, hv.symm, by decide, by decide, by decide, ?_⟩
    exact ⟨_, rfl, by decide⟩
  have hnorm : ∀ kvs, (normalize kvs).map PyVal.pdict = .ok v → ∃ kvs2,
      v = .pdict kvs2 ∧ normalize kvs = .ok kvs2 := by
    intro kvs hk
    cases hn : normalize kvs with
    | ok kvs2 =>
      rw [hn] at hk
      simp only [Except.map, Except.ok.injEq] at hk
      exact ⟨kvs2, hk.symm, rfl⟩
    | error e =>
      rw [hn] at hk
      simp [Except.map] at hk
  have hfall : loadFallback gist = .ok v → ∃ kvs, v = .pdict kvs ∧
      (dictGet kvs "last_id").isSome ∧ (dictGet kvs "etag").isSome ∧
      (dictGet kvs "modified").isSome ∧
      ∃ skvs, dictGet kvs "sent" = some (.pdict skvs) ∧
        ∀ p ∈ PLATFORMS, (dictGet skvs p).isSome := by
    intro hf
    unfold loadFallback at hf
    cases gist with
    | none =>
      simp only [Except.ok.injEq] at hf
      exact hempty hf
    | some gkvs =>
      by_cases hgi : gkvs.isEmpty
      · simp only [hgi, if_true, Except.ok.injEq] at hf
        exact hempty hf
      · simp only [hgi, if_false] at hf
        obtain ⟨kvs2, hv, hn⟩ := hnorm gkvs hf
        obtain ⟨h1, h2, h3, h4⟩ := normalize_ok_shape gkvs kvs2 hn
        exact ⟨kvs2, hv, h1, h2, h3, h4⟩
  cases file with
  | missing => exact hfall h
  | readFailed => exact hfall h
  | badJson => exact hfall h
  | parsed pv =>
    cases pv with
    | pdict kvs =>
      obtain ⟨kvs2, hv, hn⟩ := hnorm kvs h
      obtain ⟨h1, h2, h3, h4⟩ := normalize_ok_shape kvs kvs2 hn
      exact ⟨kvs2, hv, h1, h2, h3, h4⟩
    | pnull => exact hfall h
    | pbool b => exact hfall h
    | pint n => exact hfall h
    | pstr s => exact hfall h
    | plist xs => exact hfall h

/-- C10 witness: the amended shape property instantiated on a missing
state file with no Gist sync. -/
theorem C10_witness :
    ∃ kvs, emptyState = .pdict kvs ∧ (dictGet kvs "last_id").isSome ∧
      (dictGet kvs "etag").isSome ∧ (dictGet kvs "modified").isSome ∧
      ∃ skvs, dictGet kvs "sent" = some (.pdict skvs) ∧
        ∀ p ∈ PLATFORMS, (dictGet skvs p).isSome :=
  C10_load_shape .missing none emptyState rfl

/-! ### Claim theorems: health monitor -/

/-- C9: the cooldown duration used by `is_in_cooldown` equals
`min(failures * 2 minutes, cap)`, is non-decreasing in the consecutive
failure count, never exceeds the configured cap, and is exactly the
window `is_in_cooldown` compares the elapsed time against. -/
theorem C9_cooldown_monotone_capped (cap f g : Nat) (h : f ≤ g) :
    cooldownSec f cap = min (f * 120) (cap * 60) ∧
    cooldownSec f cap ≤ cooldownSec g cap ∧
    cooldownSec f cap ≤ cap * 60 ∧
    (∀ th last now : Nat,
      isInCooldown th cap f (some last) now = true →
        now - last < cooldownSec f cap) := by
  refine ⟨rfl, ?_, min_le_right _ _, ?_⟩
  · exact min_le_min (Nat.mul_le_mul_right _ h) le_rfl
  · intro th last now hc
    unfold isInCooldown at hc
    by_cases hth : f < th
    · rw [if_pos hth] at hc
      exact absurd hc (by simp)
    · rw [if_neg hth] at hc
      simpa using hc

/-- C9 witness: two failures against seven, cap 60 minutes. -/
theorem C9_witness :
    cooldownSec 2 60 = min (2 * 120) (60 * 60) ∧
    cooldownSec 2 60 ≤ cooldownSec 7 60 ∧
    cooldownSec 2 60 ≤ 60 * 60 ∧
    (∀ th last now : Nat,
      isInCooldown th 60 2 (some last) now = true →
        now - last < cooldownSec 2 60) :=
  C9_cooldown_monotone_capped 60 2 7 (by decide)

/-- C3 (code bug evidence): `bergfrid_watcher` never consults
`HealthMonitor.is_in_cooldown`, so a destination in cooldown is *not*
skipped.  Concretely: with 5 consecutive discord failures (threshold 5,
cap 60 min) and a failure recorded 60 s ago, discord is in cooldown,
yet a tick over a one-item backlog still calls discord's `publish`. -/
theorem C3_cooldown_not_consulted :
    isInCooldown 5 60 5 (some 100) 160 = true ∧
    ((bergfridWatcher envU stA entsBA).2.map (fun c => (c.platform, c.eid)))
      = [("discord", "b"), ("telegram", "b")] := by
  exact ⟨rfl, rfl⟩

/-! ### Claim theorems: ring bound of `save` -/

/-- C7 counterexample: with a configured ring maximum of 0 (the claim
quantifies over the configured maximum), `save` leaves a length-1
discord list in place -- Python's `lst[-0:]` is the whole list -- so the
stored list exceeds the configured maximum. -/
theorem C7_counterexample :
    ((saveState 0 stC7).sent "discord").length = 1 ∧ ¬ (1 ≤ 0) := by
  exact ⟨rfl, by decide⟩

/-- C7 (amended): for a *positive* configured ring maximum, after
`save` every platform's stored sent list has length at most the
maximum, and what is retained is exactly the most recently added
suffix (the last `r` entries in insertion order; older entries are
evicted first). -/
theorem C7_ring_bound (r : Nat) (hr : 0 < r) (s : TState) (p : String)
    (hp : p ∈ PLATFORMS) :
    ((saveState r s).sent p).length ≤ r ∧
    (saveState r s).sent p = (s.sent p).drop ((s.sent p).length - r) := by
  have hform : (saveState r s).sent p =
      (if r < (s.sent p).length then pySliceLast r (s.sent p) else s.sent p) := by
    unfold saveState
    simp only [if_pos hp]
  by_cases hlen : r < (s.sent p).length
  · rw [hform, if_pos hlen]
    unfold pySliceLast
    rw [if_neg (Nat.pos_iff_ne_zero.mp hr)]
    constructor
    · rw [List.length_drop]
      omega
    · rfl
  · rw [hform, if_neg hlen]
    constructor
    · omega
    · rw [Nat.sub_eq_zero_of_le (by omega)]
      rw [List.drop_zero]

/-- C7 witness: ring maximum 2 on a 3-entry discord list keeps the last
two entries. -/
theorem C7_witness :
    ((saveState 2 stC7w).sent "discord").length ≤ 2 ∧
    (saveState 2 stC7w).sent "discord"
      = (stC7w.sent "discord").drop ((stC7w.sent "discord").length - 2) :=
  C7_ring_bound 2 (by decide) stC7w "discord" (by decide)

/-! ### Basic lemmas on the ledger operations -/

theorem mem_of_head?_eq {α : Type} (l : List α) (a : α) (h : l.head? = some a) :
    a ∈ l := by
  cases l with
  | nil => simp at h
  | cons x xs =>
    simp only [List.head?_cons, Option.some.injEq] at h
    exact h ▸ List.mem_cons_self x xs

theorem sentHas_true_iff (s : TState) (p e : String) :
    sentHas s p e = true ↔ e ∈ s.sent p := by
  unfold sentHas
  exact decide_eq_true_iff

theorem sentHas_false_iff (s : TState) (p e : String) :
    sentHas s p e = false ↔ e ∉ s.sent p := by
  unfold sentHas
  simp

theorem saveState_lastId (r : Nat) (s : TState) : (saveState r s).lastId = s.lastId := rfl

theorem sentAdd_lastId (r : Nat) (s : TState) (p e : String) :
    (sentAdd r s p e).lastId = s.lastId := rfl

theorem length_pySliceLast_le (n : Nat) (l : List String) :
    (pySliceLast n l).length ≤ l.length := by
  unfold pySliceLast
  by_cases h : n = 0
  · rw [if_pos h]
  · rw [if_neg h, List.length_drop]
    omega

theorem mem_pySliceLast (n : Nat) (l : List String) (x : String)
    (h : x ∈ pySliceLast n l) : x ∈ l := by
  unfold pySliceLast at h
  by_cases hn : n = 0
  · rwa [if_pos hn] at h
  · rw [if_neg hn] at h
    exact List.mem_of_mem_drop h

theorem sentAdd_sent_other (r : Nat) (s : TState) (p e q : String) (h : ¬ q = p) :
    (sentAdd r s p e).sent q = s.sent q := by
  unfold sentAdd updateSent
  simp only [if_neg h]

theorem saveState_sent_of_le (r : Nat) (s : TState) (q : String)
    (h : (s.sent q).length ≤ r) : (saveState r s).sent q = s.sent q := by
  unfold saveState
  simp only
  by_cases hq : q ∈ PLATFORMS
  · rw [if_pos hq, if_neg (by omega)]
  · rw [if_neg hq]

theorem saveState_sent_length_le (r : Nat) (s : TState) (q : String) :
    ((saveState r s).sent q).length ≤ (s.sent q).length := by
  unfold saveState
  simp only
  by_cases hq : q ∈ PLATFORMS
  · rw [if_pos hq]
    by_cases hl : r < (s.sent q).length
    · rw [if_pos hl]
      exact length_pySliceLast_le r _
    · rw [if_neg hl]
  · rw [if_neg hq]

theorem mem_saveState (r : Nat) (s : TState) (q x : String)
    (h : x ∈ (saveState r s).sent q) : x ∈ s.sent q := by
  unfold saveState at h
  simp only at h
  by_cases hq : q ∈ PLATFORMS
  · rw [if_pos hq] at h
    by_cases hl : r < (s.sent q).length
    · rw [if_pos hl] at h
      exact mem_pySliceLast r _ x h
    · rwa [if_neg hl] at h
  · rwa [if_neg hq] at h

theorem sentAdd_sent_self_of_lt (r : Nat) (s : TState) (p e : String)
    (h : (s.sent p).length < r) :
    (sentAdd r s p e).sent p =
      (if e ∈ s.sent p then s.sent p else s.sent p ++ [e]) := by
  by_cases he : e ∈ s.sent p
  · rw [if_pos he]
    simp only [sentAdd, updateSent, if_pos he]
    rw [if_pos trivial, if_neg (by omega)]
  · rw [if_neg he]
    simp only [sentAdd, updateSent, if_neg he]
    rw [if_pos trivial, if_neg (by simp; omega)]

theorem sentAdd_sent_length_le (r : Nat) (s : TState) (p e q : String) :
    ((sentAdd r s p e).sent q).length ≤ (s.sent q).length + 1 := by
  by_cases hq : q = p
  · subst hq
    by_cases he : e ∈ s.sent q
    · simp only [sentAdd, updateSent, if_pos he]
      rw [if_pos trivial]
      by_cases hl : r < (s.sent q).length
      · rw [if_pos hl]
        have := length_pySliceLast_le r (s.sent q)
        omega
      · rw [if_neg hl]
        omega
    · simp only [sentAdd, updateSent, if_neg he]
      rw [if_pos trivial]
      by_cases hl : r < (s.sent q ++ [e]).length
      · rw [if_pos hl]
        have := length_pySliceLast_le r (s.sent q ++ [e])
        simp only [List.length_append, List.length_singleton] at this ⊢
        omega
      · rw [if_neg hl]
        simp
  · rw [sentAdd_sent_other r s p e q hq]
    omega

theorem mem_sentAdd_cases (r : Nat) (s : TState) (p e q x : String)
    (h : x ∈ (sentAdd r s p e).sent q) : x ∈ s.sent q ∨ (q = p ∧ x = e) := by
  by_cases hq : q = p
  · subst hq
    unfold sentAdd updateSent at h
    simp only [if_pos rfl] at h
    by_cases he : e ∈ s.sent q
    · rw [if_pos he] at h
      by_cases hl : r < (s.sent q).length
      · rw [if_pos hl] at h
        exact Or.inl (mem_pySliceLast r _ x h)
      · rw [if_neg hl] at h
        exact Or.inl h
    · rw [if_neg he] at h
      by_cases hl : r < (s.sent q ++ [e]).length
      · rw [if_pos hl] at h
        have := mem_pySliceLast r _ x h
        rcases List.mem_append.mp this with h2 | h2
        · exact Or.inl h2
        · exact Or.inr ⟨rfl, by simpa using h2⟩
      · rw [if_neg hl] at h
        rcases List.mem_append.mp h with h2 | h2
        · exact Or.inl h2
        · exact Or.inr ⟨rfl, by simpa using h2⟩
  · rw [sentAdd_sent_other r s p e q hq] at h
    exact Or.inl h

theorem mem_sentAdd_self (r : Nat) (s : TState) (p e : String)
    (h : (s.sent p).length < r) : e ∈ (sentAdd r s p e).sent p := by
  rw [sentAdd_sent_self_of_lt r s p e h]
  by_cases he : e ∈ s.sent p
  · rwa [if_pos he]
  · rw [if_neg he]
    simp

theorem mem_sentAdd_of_mem (r : Nat) (s : TState) (p e q x : String)
    (hp : (s.sent p).length < r) (hx : x ∈ s.sent q) :
    x ∈ (sentAdd r s p e).sent q := by
  by_cases hq : q = p
  · subst hq
    rw [sentAdd_sent_self_of_lt r s q e hp]
    by_cases he : e ∈ s.sent q
    · rwa [if_pos he]
    · rw [if_neg he]
      exact List.mem_append_left _ hx
  · rwa [sentAdd_sent_other r s p e q hq]

/-- The composed per-success state update of the dispatch loops:
`sent_add` then `save`. -/
theorem pubStep_sent_other (r : Nat) (s : TState) (p e q : String)
    (hq : ¬ q = p) (hb : (s.sent q).length ≤ r) :
    (saveState r (sentAdd r s p e)).sent q = s.sent q := by
  rw [saveState_sent_of_le r _ q (by rw [sentAdd_sent_other r s p e q hq]; exact hb)]
  exact sentAdd_sent_other r s p e q hq

theorem pubStep_mem_self (r : Nat) (s : TState) (p e : String)
    (hp : (s.sent p).length < r) :
    e ∈ (saveState r (sentAdd r s p e)).sent p := by
  have h1 : e ∈ (sentAdd r s p e).sent p := mem_sentAdd_self r s p e hp
  have h2 : ((sentAdd r s p e).sent p).length ≤ r := by
    have := sentAdd_sent_length_le r s p e p
    omega
  rwa [saveState_sent_of_le r _ p h2]

theorem pubStep_mem_of_mem (r : Nat) (s : TState) (p e q x : String)
    (hp : (s.sent p).length < r) (hq : (s.sent q).length ≤ r)
    (hx : x ∈ s.sent q) : x ∈ (saveState r (sentAdd r s p e)).sent q := by
  have h1 : x ∈ (sentAdd r s p e).sent q := mem_sentAdd_of_mem r s p e q x hp hx
  by_cases hqp : q = p
  · subst hqp
    have h2 : ((sentAdd r s q e).sent q).length ≤ r := by
      have := sentAdd_sent_length_le r s q e q
      omega
    rwa [saveState_sent_of_le r _ q h2]
  · rwa [pubStep_sent_other r s p e q hqp hq]

theorem pubStep_mem_cases (r : Nat) (s : TState) (p e q x : String)
    (h : x ∈ (saveState r (sentAdd r s p e)).sent q) :
    x ∈ s.sent q ∨ (q = p ∧ x = e) :=
  mem_sentAdd_cases r s p e q x (mem_saveState r _ q x h)

theorem pubStep_length_le (r : Nat) (s : TState) (p e q : String) :
    ((saveState r (sentAdd r s p e)).sent q).length ≤ (s.sent q).length + 1 :=
  le_trans (saveState_sent_length_le r _ q) (sentAdd_sent_length_le r s p e q)

theorem pubStep_length_other_le (r : Nat) (s : TState) (p e q : String)
    (hq : ¬ q = p) :
    ((saveState r (sentAdd r s p e)).sent q).length ≤ (s.sent q).length := by
  have h := saveState_sent_length_le r (sentAdd r s p e) q
  rwa [sentAdd_sent_other r s p e q hq] at h

/-! ### Invariants of the per-item platform loop -/

theorem count_tail_le (p q : String) (rest : List String) :
    rest.count q ≤ (p :: rest).count q := by
  by_cases hq : q = p
  · subst hq
    rw [List.count_cons_self]
    omega
  · rw [List.count_cons_of_ne hq]

theorem bound_all_le (r : Nat) (st : TState) (plats : List String)
    (hb : ∀ q, (st.sent q).length + plats.count q ≤ r) :
    ∀ q, (st.sent q).length ≤ r := by
  intro q
  have := hb q
  omega

theorem bound_head_lt (r : Nat) (st : TState) (p : String) (rest : List String)
    (hb : ∀ q, (st.sent q).length + ((p :: rest).count q) ≤ r) :
    (st.sent p).length < r := by
  have := hb p
  rw [List.count_cons_self] at this
  omega

theorem bound_tail (r : Nat) (st : TState) (p : String) (rest : List String)
    (hb : ∀ q, (st.sent q).length + ((p :: rest).count q) ≤ r) :
    ∀ q, (st.sent q).length + rest.count q ≤ r := by
  intro q
  have h1 := hb q
  have h2 := count_tail_le p q rest
  omega

theorem bound_step (r : Nat) (st : TState) (p e : String) (rest : List String)
    (hb : ∀ q, (st.sent q).length + ((p :: rest).count q) ≤ r) :
    ∀ q, ((saveState r (sentAdd r st p e)).sent q).length + rest.count q ≤ r := by
  intro q
  by_cases hq : q = p
  · subst hq
    have h1 := pubStep_length_le r st q e q
    have h2 := hb q
    rw [List.count_cons_self] at h2
    omega
  · have h1 := pubStep_length_other_le r st p e q hq
    have h2 := hb q
    have h3 := count_tail_le p q rest
    omega

theorem processPlats_lastId (env : Env) (e : String) :
    ∀ (plats : List String) (st : TState) (calls : List Call) (b : Bool),
      (processPlats env e plats st calls b).1.lastId = st.lastId := by
  intro plats
  induction plats with
  | nil => intro st calls b; rfl
  | cons p rest ih =>
    intro st calls b
    unfold processPlats
    by_cases hg : p ∈ env.enabled ∧ sentHas st p e = false
    · rw [if_pos hg]
      by_cases hr : env.pubRes p e = true
      · rw [if_pos hr, ih]
        rfl
      · rw [if_neg hr]
        exact ih st (calls ++ [⟨p, e, st⟩]) false
    · rw [if_neg hg]
      exact ih st calls b

theorem processPlats_calls (env : Env) (e : String) :
    ∀ (plats : List String) (st : TState) (calls : List Call) (b : Bool),
      ∀ c ∈ (processPlats env e plats st calls b).2.1,
        c ∈ calls ∨ (c.eid = e ∧ c.platform ∈ plats ∧ c.platform ∈ env.enabled ∧
          sentHas c.atState c.platform e = false) := by
  intro plats
  induction plats with
  | nil => intro st calls b c hc; exact Or.inl hc
  | cons p rest ih =>
    intro st calls b c hc
    unfold processPlats at hc
    by_cases hg : p ∈ env.enabled ∧ sentHas st p e = false
    · rw [if_pos hg] at hc
      have hstep : ∀ st2 b2, c ∈ (processPlats env e rest st2 (calls ++ [⟨p, e, st⟩]) b2).2.1 →
          c ∈ calls ∨ (c.eid = e ∧ c.platform ∈ p :: rest ∧ c.platform ∈ env.enabled ∧
            sentHas c.atState c.platform e = false) := by
        intro st2 b2 hc2
        rcases ih st2 (calls ++ [⟨p, e, st⟩]) b2 c hc2 with hin | hprop
        · rcases List.mem_append.mp hin with hin2 | hin2
          · exact Or.inl hin2
          · have hc0 : c = ⟨p, e, st⟩ := by simpa using hin2
            subst hc0
            exact Or.inr ⟨rfl, List.mem_cons_self p rest, hg.1, hg.2⟩
        · exact Or.inr ⟨hprop.1, List.mem_cons_of_mem p hprop.2.1, hprop.2.2⟩
      by_cases hr : env.pubRes p e = true
      · rw [if_pos hr] at hc
        exact hstep _ _ hc
      · rw [if_neg hr] at hc
        exact hstep _ _ hc
    · rw [if_neg hg] at hc
      rcases ih st calls b c hc with hin | hprop
      · exact Or.inl hin
      · exact Or.inr ⟨hprop.1, List.mem_cons_of_mem p hprop.2.1, hprop.2.2⟩

theorem processPlats_length (env : Env) (e : String) :
    ∀ (plats : List String) (st : TState) (calls : List Call) (b : Bool) (q : String),
      ((processPlats env e plats st calls b).1.sent q).length ≤
        (st.sent q).length + plats.count q := by
  intro plats
  induction plats with
  | nil => intro st calls b q; simp [processPlats]
  | cons p rest ih =>
    intro st calls b q
    unfold processPlats
    by_cases hg : p ∈ env.enabled ∧ sentHas st p e = false
    · rw [if_pos hg]
      by_cases hr : env.pubRes p e = true
      · rw [if_pos hr]
        have h1 := ih (saveState env.ringMax (sentAdd env.ringMax st p e))
          (calls ++ [⟨p, e, st⟩]) b q
        by_cases hq : q = p
        · subst hq
          have h2 := pubStep_length_le env.ringMax st q e q
          rw [List.count_cons_self]
          omega
        · have h2 := pubStep_length_other_le env.ringMax st p e q hq
          rw [List.count_cons_of_ne hq]
          omega
      · rw [if_neg hr]
        have h1 := ih st (calls ++ [⟨p, e, st⟩]) false q
        have h2 := count_tail_le p q rest
        omega
    · rw [if_neg hg]
      have h1 := ih st calls b q
      have h2 := count_tail_le p q rest
      omega

theorem processPlats_mono (env : Env) (e : String) :
    ∀ (plats : List String) (st : TState) (calls : List Call) (b : Bool),
      (∀ q, (st.sent q).length + plats.count q ≤ env.ringMax) →
      ∀ q x, x ∈ st.sent q → x ∈ (processPlats env e plats st calls b).1.sent q := by
  intro plats
  induction plats with
  | nil => intro st calls b _ q x hx; exact hx
  | cons p rest ih =>
    intro st calls b hb q x hx
    unfold processPlats
    by_cases hg : p ∈ env.enabled ∧ sentHas st p e = false
    · rw [if_pos hg]
      by_cases hr : env.pubRes p e = true
      · rw [if_pos hr]
        refine ih _ _ b (bound_step env.ringMax st p e rest hb) q x ?_
        exact pubStep_mem_of_mem env.ringMax st p e q x
          (bound_head_lt env.ringMax st p rest hb)
          (bound_all_le env.ringMax st (p :: rest) hb q) hx
      · rw [if_neg hr]
        exact ih st _ false (bound_tail env.ringMax st p rest hb) q x hx
    · rw [if_neg hg]
      exact ih st calls b (bound_tail env.ringMax st p rest hb) q x hx

theorem processPlats_sent_cases (env : Env) (e : String) :
    ∀ (plats : List String) (st : TState) (calls : List Call) (b : Bool) (q x : String),
      x ∈ (processPlats env e plats st calls b).1.sent q →
      x ∈ st.sent q ∨ (x = e ∧ q ∈ plats) := by
  intro plats
  induction plats with
  | nil => intro st calls b q x hx; exact Or.inl hx
  | cons p rest ih =>
    intro st calls b q x hx
    unfold processPlats at hx
    by_cases hg : p ∈ env.enabled ∧ sentHas st p e = false
    · rw [if_pos hg] at hx
      by_cases hr : env.pubRes p e = true
      · rw [if_pos hr] at hx
        rcases ih _ _ b q x hx with h2 | h2
        · rcases pubStep_mem_cases env.ringMax st p e q x h2 with h3 | h3
          · exact Or.inl h3
          · exact Or.inr ⟨h3.2, h3.1 ▸ List.mem_cons_self p rest⟩
        · exact Or.inr ⟨h2.1, List.mem_cons_of_mem p h2.2⟩
      · rw [if_neg hr] at hx
        rcases ih _ _ false q x hx with h2 | h2
        · exact Or.inl h2
        · exact Or.inr ⟨h2.1, List.mem_cons_of_mem p h2.2⟩
    · rw [if_neg hg] at hx
      rcases ih _ _ b q x hx with h2 | h2
      · exact Or.inl h2
      · exact Or.inr ⟨h2.1, List.mem_cons_of_mem p h2.2⟩

/-- The `all_ok` flag of the per-item loop is true exactly when every
enabled platform in the (duplicate-free) platform list either holds the
item in its sent set after the loop or already held it before the loop,
provided no ring eviction can occur. -/
theorem processPlats_allOk (env : Env) (e : String) :
    ∀ (plats : List String) (st : TState) (calls : List Call) (b : Bool),
      (∀ q, (st.sent q).length + plats.count q ≤ env.ringMax) →
      plats.Nodup →
      ((processPlats env e plats st calls b).2.2 = true ↔
        (b = true ∧ ∀ p ∈ plats, p ∈ env.enabled →
          (e ∈ (processPlats env e plats st calls b).1.sent p ∨ e ∈ st.sent p))) := by
  intro plats
  induction plats with
  | nil =>
    intro st calls b _ _
    simp [processPlats]
  | cons p rest ih =>
    intro st calls b hb hnd
    obtain ⟨hp_notin, hnd2⟩ := List.nodup_cons.mp hnd
    unfold processPlats
    by_cases hg : p ∈ env.enabled ∧ sentHas st p e = false
    · rw [if_pos hg]
      by_cases hr : env.pubRes p e = true
      · -- publish succeeded: the item is now in p's sent set and stays there
        rw [if_pos hr]
        have hb2 := bound_step env.ringMax st p e rest hb
        have hIH := ih (saveState env.ringMax (sentAdd env.ringMax st p e))
          (calls ++ [⟨p, e, st⟩]) b hb2 hnd2
        have hself : e ∈ (processPlats env e rest
            (saveState env.ringMax (sentAdd env.ringMax st p e))
            (calls ++ [⟨p, e, st⟩]) b).1.sent p :=
          processPlats_mono env e rest _ _ b hb2 p e
            (pubStep_mem_self env.ringMax st p e (bound_head_lt env.ringMax st p rest hb))
        have hst2q : ∀ q ∈ rest,
            (saveState env.ringMax (sentAdd env.ringMax st p e)).sent q = st.sent q := by
          intro q hq
          have hqp : ¬ q = p := fun h => hp_notin (h ▸ hq)
          exact pubStep_sent_other env.ringMax st p e q hqp
            (bound_all_le env.ringMax st (p :: rest) hb q)
        rw [hIH]
        refine and_congr_right fun _ => ?_
        constructor
        · intro h q hq hqe
          rcases List.mem_cons.mp hq with h1 | h1
          · subst h1
            exact Or.inl hself
          · rcases h q h1 hqe with h2 | h2
            · exact Or.inl h2
            · right
              rwa [hst2q q h1] at h2
        · intro h q hq hqe
          rcases h q (List.mem_cons_of_mem p hq) hqe with h2 | h2
          · exact Or.inl h2
          · right
            rwa [hst2q q hq]
      · -- publish failed: all_ok is now false and p never receives the item
        rw [if_neg hr]
        have hIH := ih st (calls ++ [⟨p, e, st⟩]) false
          (bound_tail env.ringMax st p rest hb) hnd2
        have hfalse : (processPlats env e rest st (calls ++ [⟨p, e, st⟩]) false).2.2 ≠ true := by
          intro h
          rw [hIH] at h
          simp at h
        have hnotst : e ∉ st.sent p := (sentHas_false_iff st p e).mp hg.2
        constructor
        · intro h
          exact absurd h hfalse
        · rintro ⟨-, h⟩
          rcases h p (List.mem_cons_self p rest) hg.1 with h2 | h2
          · rcases processPlats_sent_cases env e rest st _ false p e h2 with h3 | h3
            · exact absurd h3 hnotst
            · exact absurd h3.2 hp_notin
          · exact absurd h2 hnotst
    · -- platform disabled or already sent: skipped, all_ok unchanged
      rw [if_neg hg]
      have hIH := ih st calls b (bound_tail env.ringMax st p rest hb) hnd2
      rw [hIH]
      refine and_congr_right fun _ => ?_
      constructor
      · intro h q hq hqe
        rcases List.mem_cons.mp hq with h1 | h1
        · subst h1
          have hsent : sentHas st q e = true := by
            cases hs : sentHas st q e with
            | true => rfl
            | false => exact absurd ⟨hqe, hs⟩ hg
          exact Or.inr ((sentHas_true_iff st q e).mp hsent)
        · exact h q h1 hqe
      · intro h q hq hqe
        exact h q (List.mem_cons_of_mem p hq) hqe

/-! ### Invariants of the backlog loop -/

theorem runBacklog_cons (env : Env) (e : String) (items2 : List String) (st : TState) :
    runBacklog env (e :: items2) st =
      (if (processItem env st e).2.2 = true then
        ((runBacklog env items2 (saveState env.ringMax
            { (processItem env st e).1 with lastId := some e })).1,
         (processItem env st e).2.1 ++ (runBacklog env items2 (saveState env.ringMax
            { (processItem env st e).1 with lastId := some e })).2.1,
         (runBacklog env items2 (saveState env.ringMax
            { (processItem env st e).1 with lastId := some e })).2.2)
      else ((processItem env st e).1, (processItem env st e).2.1, false)) := rfl

theorem runBacklog_lastId (env : Env) :
    ∀ (items : List String) (st : TState),
      (runBacklog env items st).1.lastId = st.lastId ∨
      ∃ e ∈ items, (runBacklog env items st).1.lastId = some e := by
  intro items
  induction items with
  | nil => intro st; exact Or.inl rfl
  | cons e items2 ih =>
    intro st
    rw [runBacklog_cons]
    by_cases hok : (processItem env st e).2.2 = true
    · rw [if_pos hok]
      rcases ih (saveState env.ringMax { (processItem env st e).1 with lastId := some e })
        with h | ⟨e2, he2, h⟩
      · right
        exact ⟨e, List.mem_cons_self e items2, h⟩
      · right
        exact ⟨e2, List.mem_cons_of_mem e he2, h⟩
    · rw [if_neg hok]
      left
      exact processPlats_lastId env e (pubNames env) st [] true

theorem runBacklog_calls (env : Env) :
    ∀ (items : List String) (st : TState),
      ∀ c ∈ (runBacklog env items st).2.1,
        c.eid ∈ items ∧ c.platform ∈ pubNames env ∧ c.platform ∈ env.enabled ∧
        sentHas c.atState c.platform c.eid = false := by
  intro items
  induction items with
  | nil => intro st c hc; simp [runBacklog] at hc
  | cons e items2 ih =>
    intro st c hc
    rw [runBacklog_cons] at hc
    have hpi : c ∈ (processItem env st e).2.1 →
        c.eid ∈ e :: items2 ∧ c.platform ∈ pubNames env ∧ c.platform ∈ env.enabled ∧
        sentHas c.atState c.platform c.eid = false := by
      intro hc2
      rcases processPlats_calls env e (pubNames env) st [] true c hc2 with h | h
      · simp at h
      · exact ⟨h.1 ▸ List.mem_cons_self e items2, h.2.1, h.2.2.1, h.1 ▸ h.2.2.2⟩
    by_cases hok : (processItem env st e).2.2 = true
    · rw [if_pos hok] at hc
      simp only at hc
      rcases List.mem_append.mp hc with hc2 | hc2
      · exact hpi hc2
      · have := ih _ c hc2
        exact ⟨List.mem_cons_of_mem e this.1, this.2⟩
    · rw [if_neg hok] at hc
      exact hpi hc

theorem run_bound_item (env : Env) (hnd : (pubNames env).Nodup) (st : TState) (n : Nat)
    (hn : 1 ≤ n) (hb : ∀ q, (st.sent q).length + n ≤ env.ringMax) :
    ∀ q, (st.sent q).length + (pubNames env).count q ≤ env.ringMax := by
  intro q
  have h2 : (pubNames env).count q ≤ 1 := List.nodup_iff_count_le_one.mp hnd q
  have h3 := hb q
  omega

theorem run_bound_step (env : Env) (hnd : (pubNames env).Nodup) (st : TState)
    (e : String) (m : Nat)
    (hb : ∀ q, (st.sent q).length + (m + 1) ≤ env.ringMax) :
    ∀ q, ((saveState env.ringMax
        { (processItem env st e).1 with lastId := some e }).sent q).length + m
      ≤ env.ringMax := by
  intro q
  have h1 : ((processItem env st e).1.sent q).length ≤
      (st.sent q).length + (pubNames env).count q :=
    processPlats_length env e (pubNames env) st [] true q
  have h2 : (pubNames env).count q ≤ 1 := List.nodup_iff_count_le_one.mp hnd q
  have h3 : ((saveState env.ringMax
      { (processItem env st e).1 with lastId := some e }).sent q).length ≤
      ((processItem env st e).1.sent q).length :=
    saveState_sent_length_le env.ringMax _ q
  have h4 := hb q
  omega

theorem run_step_mono (env : Env) (st : TState) (e : String)
    (hb : ∀ q, (st.sent q).length + (pubNames env).count q ≤ env.ringMax)
    (q x : String) (hx : x ∈ st.sent q) :
    x ∈ (saveState env.ringMax
      { (processItem env st e).1 with lastId := some e }).sent q := by
  have h1 : x ∈ (processItem env st e).1.sent q :=
    processPlats_mono env e (pubNames env) st [] true hb q x hx
  have h2 : (({ (processItem env st e).1 with lastId := some e } : TState).sent q).length
      ≤ env.ringMax := by
    have h3 : ((processItem env st e).1.sent q).length ≤
        (st.sent q).length + (pubNames env).count q :=
      processPlats_length env e (pubNames env) st [] true q
    have h4 := hb q
    show ((processItem env st e).1.sent q).length ≤ env.ringMax
    omega
  rw [saveState_sent_of_le env.ringMax _ q h2]
  exact h1

theorem run_step_cases (env : Env) (st : TState) (e q x : String)
    (h : x ∈ (saveState env.ringMax
      { (processItem env st e).1 with lastId := some e }).sent q) :
    x ∈ st.sent q ∨ x = e := by
  have h1 : x ∈ (processItem env st e).1.sent q := mem_saveState env.ringMax _ q x h
  rcases processPlats_sent_cases env e (pubNames env) st [] true q x h1 with h2 | h2
  · exact Or.inl h2
  · exact Or.inr h2.1

theorem runBacklog_mono (env : Env) (hnd : (pubNames env).Nodup) :
    ∀ (items : List String) (st : TState),
      (∀ q, (st.sent q).length + items.length ≤ env.ringMax) →
      ∀ q x, x ∈ st.sent q → x ∈ (runBacklog env items st).1.sent q := by
  intro items
  induction items with
  | nil => intro st _ q x hx; exact hx
  | cons e items2 ih =>
    intro st hb q x hx
    have hb1 : ∀ q2, (st.sent q2).length + (pubNames env).count q2 ≤ env.ringMax :=
      run_bound_item env hnd st (items2.length + 1) (by omega)
        (by intro q2; have := hb q2; simpa using this)
    rw [runBacklog_cons]
    by_cases hok : (processItem env st e).2.2 = true
    · rw [if_pos hok]
      refine ih _ ?_ q x (run_step_mono env st e hb1 q x hx)
      exact run_bound_step env hnd st e items2.length
        (by intro q2; have := hb q2; simpa using this)
    · rw [if_neg hok]
      exact processPlats_mono env e (pubNames env) st [] true hb1 q x hx

theorem mem_enabledDests (env : Env) (d : String) :
    d ∈ enabledDests env ↔ (d ∈ pubNames env ∧ d ∈ env.enabled) := by
  unfold enabledDests
  rw [List.mem_filter]
  simp

/-- Master invariant of the backlog loop: the processed items split into
a fully-resolved prefix `done` (through which the cursor advanced, in
order) and an untouched suffix `rest`; when `rest` is nonempty its head
is the item on which a publish failed, nothing past it was attempted,
and no sent set changed for any identifier other than the processed
ones. -/
theorem runBacklog_master (env : Env) (hnd : (pubNames env).Nodup) :
    ∀ (items : List String) (st : TState),
      (∀ q, (st.sent q).length + items.length ≤ env.ringMax) →
      ∃ done rest, items = done ++ rest ∧
        (done = [] → (runBacklog env items st).1.lastId = st.lastId) ∧
        (∀ eL, done.getLast? = some eL → (runBacklog env items st).1.lastId = some eL) ∧
        (∀ e2 ∈ done, ∀ d ∈ enabledDests env,
          e2 ∈ (runBacklog env items st).1.sent d ∨ e2 ∈ st.sent d) ∧
        ((runBacklog env items st).2.2 = rest.isEmpty) ∧
        (∀ e2 rest2, rest = e2 :: rest2 →
          (∃ d ∈ enabledDests env,
            e2 ∉ (runBacklog env items st).1.sent d ∧ e2 ∉ st.sent d) ∧
          (∀ c ∈ (runBacklog env items st).2.1, c.eid ∈ done ∨ c.eid = e2) ∧
          (∀ d x, x ∉ done → ¬ x = e2 →
            (x ∈ (runBacklog env items st).1.sent d ↔ x ∈ st.sent d))) := by
  intro items
  induction items with
  | nil =>
    intro st hb
    refine ⟨[], [], rfl, fun _ => rfl, ?_, ?_, rfl, ?_⟩
    · intro eL h
      simp at h
    · intro e2 h
      simp at h
    · intro e2 rest2 h
      cases h
  | cons e items2 ih =>
    intro st hb
    have hb1 : ∀ q, (st.sent q).length + (pubNames env).count q ≤ env.ringMax :=
      run_bound_item env hnd st (e :: items2).length (by simp)
        (by intro q2; exact hb q2)
    by_cases hok : (processItem env st e).2.2 = true
    · -- the item resolved on every enabled platform: cursor advances to it
      have hR : runBacklog env (e :: items2) st =
          ((runBacklog env items2 (saveState env.ringMax
            { (processItem env st e).1 with lastId := some e })).1,
           (processItem env st e).2.1 ++ (runBacklog env items2 (saveState env.ringMax
            { (processItem env st e).1 with lastId := some e })).2.1,
           (runBacklog env items2 (saveState env.ringMax
            { (processItem env st e).1 with lastId := some e })).2.2) := by
        rw [runBacklog_cons, if_pos hok]
      have hb2 : ∀ q, ((saveState env.ringMax
          { (processItem env st e).1 with lastId := some e }).sent q).length
            + items2.length ≤ env.ringMax :=
        run_bound_step env hnd st e items2.length
          (by intro q2; have := hb q2; simpa using this)
      obtain ⟨done2, rest, heq, hB2, hC2, hD2, hE2, hF2⟩ :=
        ih (saveState env.ringMax { (processItem env st e).1 with lastId := some e }) hb2
      have hall := (processPlats_allOk env e (pubNames env) st [] true hb1 hnd).mp hok
      have hTsent : ∀ d, ((processItem env st e).1.sent d).length ≤ env.ringMax := by
        intro d
        have h3 : ((processItem env st e).1.sent d).length ≤
            (st.sent d).length + (pubNames env).count d :=
          processPlats_length env e (pubNames env) st [] true d
        have h4 := hb1 d
        omega
      have hTeq : ∀ d, (saveState env.ringMax
          { (processItem env st e).1 with lastId := some e }).sent d
            = (processItem env st e).1.sent d := by
        intro d
        exact saveState_sent_of_le env.ringMax _ d (hTsent d)
      refine ⟨e :: done2, rest, by rw [heq]; rfl, ?_, ?_, ?_, ?_, ?_⟩
      · intro h
        cases h
      · intro eL hL
        rw [hR]
        cases done2 with
        | nil =>
          simp only [List.getLast?_singleton, Option.some.injEq] at hL
          subst hL
          rw [hB2 rfl]
          rfl
        | cons d ds =>
          rw [List.getLast?_cons_cons] at hL
          exact hC2 eL hL
      · intro e2 he2 d hd
        rw [hR]
        rcases List.mem_cons.mp he2 with h1 | h1
        · subst h1
          have hd2 := (mem_enabledDests env d).mp hd
          rcases hall.2 d hd2.1 hd2.2 with h2 | h2
          · left
            refine runBacklog_mono env hnd items2 _ hb2 d e2 ?_
            rw [hTeq d]
            exact h2
          · exact Or.inr h2
        · rcases hD2 e2 h1 d hd with h2 | h2
          · exact Or.inl h2
          · left
            exact runBacklog_mono env hnd items2 _ hb2 d e2 h2
      · rw [hR]
        exact hE2
      · intro e2 rest2 hrest
        obtain ⟨⟨d, hd, hn1, hn2⟩, hcalls2, hpres2⟩ := hF2 e2 rest2 hrest
        rw [hR]
        refine ⟨⟨d, hd, hn1, ?_⟩, ?_, ?_⟩
        · intro hmem
          exact hn2 (run_step_mono env st e hb1 d e2 hmem)
        · intro c hc
          rcases List.mem_append.mp hc with hc2 | hc2
          · rcases processPlats_calls env e (pubNames env) st [] true c hc2 with h3 | h3
            · simp at h3
            · exact Or.inl (h3.1 ▸ List.mem_cons_self e done2)
          · rcases hcalls2 c hc2 with h3 | h3
            · exact Or.inl (List.mem_cons_of_mem e h3)
            · exact Or.inr h3
        · intro d2 x hxd hxe2
          have hxdone2 : x ∉ done2 := fun h => hxd (List.mem_cons_of_mem e h)
          have hxe : ¬ x = e := fun h => hxd (h ▸ List.mem_cons_self e done2)
          refine (hpres2 d2 x hxdone2 hxe2).trans ?_
          constructor
          · intro hmem
            rcases run_step_cases env st e d2 x hmem with h3 | h3
            · exact h3
            · exact absurd h3 hxe
          · intro hmem
            exact run_step_mono env st e hb1 d2 x hmem
    · -- a publish failed: the loop stops, the cursor stays, nothing later runs
      have hR : runBacklog env (e :: items2) st =
          ((processItem env st e).1, (processItem env st e).2.1, false) := by
        rw [runBacklog_cons, if_neg hok]
      refine ⟨[], e :: items2, rfl, ?_, ?_, ?_, ?_, ?_⟩
      · intro _
        rw [hR]
        exact processPlats_lastId env e (pubNames env) st [] true
      · intro eL h
        simp at h
      · intro e2 h
        simp at h
      · rw [hR]
        rfl
      · intro e2 rest2 hrest
        injection hrest with h1 h2
        subst h1
        subst h2
        have hno : ¬ (true = true ∧ ∀ p ∈ pubNames env, p ∈ env.enabled →
            (e ∈ (processPlats env e (pubNames env) st [] true).1.sent p ∨
              e ∈ st.sent p)) :=
          fun hcontra => hok ((processPlats_allOk env e (pubNames env) st [] true hb1 hnd).mpr hcontra)
        push_neg at hno
        obtain ⟨p, hp, hpe, hpn⟩ := hno rfl
        rw [hR]
        refine ⟨⟨p, (mem_enabledDests env p).mpr ⟨hp, hpe⟩, ?_, ?_⟩, ?_, ?_⟩
        · exact fun h => hpn.1 h
        · exact hpn.2
        · intro c hc
          rcases processPlats_calls env e (pubNames env) st [] true c hc with h3 | h3
          · simp at h3
          · exact Or.inr h3.1
        · intro d x _ hxe
          constructor
          · intro hmem
            rcases processPlats_sent_cases env e (pubNames env) st [] true d x hmem with h3 | h3
            · exact h3
            · exact absurd h3.1 hxe
          · intro hmem
            exact processPlats_mono env e (pubNames env) st [] true hb1 d x hmem

/-! ### Invariants of catch-up reconciliation -/

theorem catchupPlats_lastId (env : Env) (e : String) :
    ∀ (plats : List String) (st : TState) (calls : List Call),
      (catchupPlats env e plats st calls).1.lastId = st.lastId := by
  intro plats
  induction plats with
  | nil => intro st calls; rfl
  | cons p rest ih =>
    intro st calls
    unfold catchupPlats
    by_cases hg : p ∈ env.enabled ∧ sentHas st p e = false ∧
        ((pubNames env).any fun o => !(o == p) && sentHas st o e) = true
    · rw [if_pos hg]
      by_cases hr : env.pubRes p e = true
      · rw [if_pos hr, ih]
        rfl
      · rw [if_neg hr]
        exact ih st _
    · rw [if_neg hg]
      exact ih st calls

theorem catchupEntries_lastId (env : Env) :
    ∀ (ents : List String) (st : TState) (calls : List Call),
      (catchupEntries env ents st calls).1.lastId = st.lastId := by
  intro ents
  induction ents with
  | nil => intro st calls; rfl
  | cons e rest ih =>
    intro st calls
    unfold catchupEntries
    rw [ih]
    exact catchupPlats_lastId env e (pubNames env) st calls

theorem catchup_lastId (env : Env) (st : TState) (entries : List String) :
    (catchup env st entries).1.lastId = st.lastId :=
  catchupEntries_lastId env (entries.take CATCHUP_WINDOW) st []

theorem catchupPlats_calls (env : Env) (e : String) :
    ∀ (plats : List String) (st : TState) (calls : List Call),
      ∀ c ∈ (catchupPlats env e plats st calls).2,
        c ∈ calls ∨ (c.eid = e ∧ c.platform ∈ plats ∧ c.platform ∈ env.enabled ∧
          sentHas c.atState c.platform e = false ∧
          ((pubNames env).any fun o => !(o == c.platform) && sentHas c.atState o e) = true) := by
  intro plats
  induction plats with
  | nil => intro st calls c hc; exact Or.inl hc
  | cons p rest ih =>
    intro st calls c hc
    unfold catchupPlats at hc
    by_cases hg : p ∈ env.enabled ∧ sentHas st p e = false ∧
        ((pubNames env).any fun o => !(o == p) && sentHas st o e) = true
    · rw [if_pos hg] at hc
      have hstep : ∀ st2, c ∈ (catchupPlats env e rest st2 (calls ++ [⟨p, e, st⟩])).2 →
          c ∈ calls ∨ (c.eid = e ∧ c.platform ∈ p :: rest ∧ c.platform ∈ env.enabled ∧
            sentHas c.atState c.platform e = false ∧
            ((pubNames env).any fun o => !(o == c.platform) && sentHas c.atState o e) = true) := by
        intro st2 hc2
        rcases ih st2 (calls ++ [⟨p, e, st⟩]) c hc2 with hin | hprop
        · rcases List.mem_append.mp hin with hin2 | hin2
          · exact Or.inl hin2
          · have hc0 : c = ⟨p, e, st⟩ := by simpa using hin2
            subst hc0
            exact Or.inr ⟨rfl, List.mem_cons_self p rest, hg.1, hg.2.1, hg.2.2⟩
        · exact Or.inr ⟨hprop.1, List.mem_cons_of_mem p hprop.2.1, hprop.2.2⟩
      by_cases hr : env.pubRes p e = true
      · rw [if_pos hr] at hc
        exact hstep _ hc
      · rw [if_neg hr] at hc
        exact hstep _ hc
    · rw [if_neg hg] at hc
      rcases ih st calls c hc with hin | hprop
      · exact Or.inl hin
      · exact Or.inr ⟨hprop.1, List.mem_cons_of_mem p hprop.2.1, hprop.2.2⟩

theorem catchupEntries_calls (env : Env) :
    ∀ (ents : List String) (st : TState) (calls : List Call),
      ∀ c ∈ (catchupEntries env ents st calls).2,
        c ∈ calls ∨ (c.eid ∈ ents ∧ c.platform ∈ pubNames env ∧ c.platform ∈ env.enabled ∧
          sentHas c.atState c.platform c.eid = false ∧
          ((pubNames env).any fun o => !(o == c.platform) && sentHas c.atState o c.eid) = true) := by
  intro ents
  induction ents with
  | nil => intro st calls c hc; exact Or.inl hc
  | cons e rest ih =>
    intro st calls c hc
    unfold catchupEntries at hc
    rcases ih _ _ c hc with hin | hprop
    · rcases catchupPlats_calls env e (pubNames env) st calls c hin with hin2 | hprop2
      · exact Or.inl hin2
      · exact Or.inr ⟨hprop2.1 ▸ List.mem_cons_self e rest, hprop2.2.1, hprop2.2.2.1,
          hprop2.1 ▸ hprop2.2.2.2.1, hprop2.1 ▸ hprop2.2.2.2.2⟩
    · exact Or.inr ⟨List.mem_cons_of_mem e hprop.1, hprop.2⟩

theorem catchup_calls (env : Env) (st : TState) (entries : List String) :
    ∀ c ∈ (catchup env st entries).2,
      c.eid ∈ entries.take CATCHUP_WINDOW ∧ c.platform ∈ pubNames env ∧
      c.platform ∈ env.enabled ∧ sentHas c.atState c.platform c.eid = false ∧
      ((pubNames env).any fun o => !(o == c.platform) && sentHas c.atState o c.eid) = true := by
  intro c hc
  rcases catchupEntries_calls env (entries.take CATCHUP_WINDOW) st [] c hc with hin | hprop
  · simp at hin
  · exact hprop

/-! ### Invariants of recovery seeding -/

theorem seed_lastId (env : Env) (st : TState) (e : String) (rest : List String) :
    (seed env st (e :: rest)).lastId = some e := rfl

theorem sf_bound_step (r : Nat) (s : TState) (p e : String) (rest : List String)
    (hb : ∀ q, (s.sent q).length + ((p :: rest).count q) ≤ r) :
    ∀ q, ((sentAdd r s p e).sent q).length + rest.count q ≤ r := by
  intro q
  by_cases hq : q = p
  · subst hq
    have h1 := sentAdd_sent_length_le r s q e q
    have h2 := hb q
    rw [List.count_cons_self] at h2
    omega
  · rw [sentAdd_sent_other r s p e q hq]
    have h2 := hb q
    have h3 := count_tail_le p q rest
    omega

theorem platsFold_length (r : Nat) (e : String) :
    ∀ (plats : List String) (s : TState) (q : String),
      ((plats.foldl (fun s2 p => sentAdd r s2 p e) s).sent q).length ≤
        (s.sent q).length + plats.count q := by
  intro plats
  induction plats with
  | nil => intro s q; simp
  | cons p rest ih =>
    intro s q
    simp only [List.foldl_cons]
    have h1 := ih (sentAdd r s p e) q
    by_cases hq : q = p
    · subst hq
      have h2 := sentAdd_sent_length_le r s q e q
      rw [List.count_cons_self]
      omega
    · rw [sentAdd_sent_other r s p e q hq] at h1
      have h3 := count_tail_le p q rest
      omega

theorem platsFold_mono (r : Nat) (e : String) :
    ∀ (plats : List String) (s : TState),
      (∀ q, (s.sent q).length + plats.count q ≤ r) →
      ∀ q x, x ∈ s.sent q →
        x ∈ ((plats.foldl (fun s2 p => sentAdd r s2 p e) s).sent q) := by
  intro plats
  induction plats with
  | nil => intro s _ q x hx; exact hx
  | cons p rest ih =>
    intro s hb q x hx
    simp only [List.foldl_cons]
    refine ih (sentAdd r s p e) (sf_bound_step r s p e rest hb) q x ?_
    exact mem_sentAdd_of_mem r s p e q x (bound_head_lt r s p rest hb) hx

theorem platsFold_self (r : Nat) (e : String) :
    ∀ (plats : List String) (s : TState),
      (∀ q, (s.sent q).length + plats.count q ≤ r) →
      ∀ p ∈ plats, e ∈ ((plats.foldl (fun s2 p2 => sentAdd r s2 p2 e) s).sent p) := by
  intro plats
  induction plats with
  | nil => intro s _ p hp; cases hp
  | cons p2 rest ih =>
    intro s hb p hp
    simp only [List.foldl_cons]
    rcases List.mem_cons.mp hp with h1 | h1
    · subst h1
      refine platsFold_mono r e rest (sentAdd r s p e) (sf_bound_step r s p e rest hb) p e ?_
      exact mem_sentAdd_self r s p e (bound_head_lt r s p rest hb)
    · exact ih (sentAdd r s p2 e) (sf_bound_step r s p2 e rest hb) p h1

theorem entriesFold_bound_step (env : Env) (hndE : (enabledDests env).Nodup)
    (s : TState) (e : String) (m : Nat)
    (hb : ∀ q, (s.sent q).length + (m + 1) ≤ env.ringMax) :
    ∀ q, (((enabledDests env).foldl (fun s2 p => sentAdd env.ringMax s2 p e) s).sent q).length
      + m ≤ env.ringMax := by
  intro q
  have h1 := platsFold_length env.ringMax e (enabledDests env) s q
  have h2 : (enabledDests env).count q ≤ 1 := List.nodup_iff_count_le_one.mp hndE q
  have h3 := hb q
  omega

theorem entriesFold_item_bound (env : Env) (hndE : (enabledDests env).Nodup)
    (s : TState) (n : Nat) (hn : 1 ≤ n)
    (hb : ∀ q, (s.sent q).length + n ≤ env.ringMax) :
    ∀ q, (s.sent q).length + (enabledDests env).count q ≤ env.ringMax := by
  intro q
  have h2 : (enabledDests env).count q ≤ 1 := List.nodup_iff_count_le_one.mp hndE q
  have h3 := hb q
  omega

theorem entriesFold_mono (env : Env) (hndE : (enabledDests env).Nodup) :
    ∀ (ents : List String) (s : TState),
      (∀ q, (s.sent q).length + ents.length ≤ env.ringMax) →
      ∀ q x, x ∈ s.sent q →
        x ∈ ((ents.foldl (fun s3 e2 => (enabledDests env).foldl
          (fun s2 p => sentAdd env.ringMax s2 p e2) s3) s).sent q) := by
  intro ents
  induction ents with
  | nil => intro s _ q x hx; exact hx
  | cons e rest ih =>
    intro s hb q x hx
    simp only [List.foldl_cons]
    refine ih _ (entriesFold_bound_step env hndE s e rest.length
      (by intro q2; have := hb q2; simpa using this)) q x ?_
    exact platsFold_mono env.ringMax e (enabledDests env) s
      (entriesFold_item_bound env hndE s (rest.length + 1) (by omega)
        (by intro q2; have := hb q2; simpa using this)) q x hx

theorem entriesFold_marks (env : Env) (hndE : (enabledDests env).Nodup) :
    ∀ (ents : List String) (s : TState),
      (∀ q, (s.sent q).length + ents.length ≤ env.ringMax) →
      ∀ e ∈ ents, ∀ p ∈ enabledDests env,
        e ∈ ((ents.foldl (fun s3 e2 => (enabledDests env).foldl
          (fun s2 p2 => sentAdd env.ringMax s2 p2 e2) s3) s).sent p) := by
  intro ents
  induction ents with
  | nil => intro s _ e he; cases he
  | cons e2 rest ih =>
    intro s hb e he p hp
    simp only [List.foldl_cons]
    have hstep := entriesFold_bound_step env hndE s e2 rest.length
      (by intro q2; have := hb q2; simpa using this)
    rcases List.mem_cons.mp he with h1 | h1
    · subst h1
      refine entriesFold_mono env hndE rest _ hstep p e ?_
      exact platsFold_self env.ringMax e (enabledDests env) s
        (entriesFold_item_bound env hndE s (rest.length + 1) (by omega)
          (by intro q2; have := hb q2; simpa using this)) p hp
    · exact ih _ hstep e h1 p hp

theorem entriesFold_length (env : Env) (hndE : (enabledDests env).Nodup) :
    ∀ (ents : List String) (s : TState) (q : String),
      ((ents.foldl (fun s3 e2 => (enabledDests env).foldl
        (fun s2 p => sentAdd env.ringMax s2 p e2) s3) s).sent q).length ≤
        (s.sent q).length + ents.length := by
  intro ents
  induction ents with
  | nil => intro s q; simp
  | cons e rest ih =>
    intro s q
    simp only [List.foldl_cons]
    have h1 := ih ((enabledDests env).foldl (fun s2 p => sentAdd env.ringMax s2 p e) s) q
    have h2 := platsFold_length env.ringMax e (enabledDests env) s q
    have h3 : (enabledDests env).count q ≤ 1 := List.nodup_iff_count_le_one.mp hndE q
    simp only [List.length_cons]
    omega

/-! ### Branch equations of the tick -/

theorem tick_eq_empty (env : Env) (st0 : TState) (entries : List String)
    (h1 : entries.isEmpty = true) :
    bergfridWatcher env st0 entries = (saveState env.ringMax st0, []) := by
  simp only [bergfridWatcher]
  rw [if_pos h1]

theorem tick_eq_seed_cold (env : Env) (st0 : TState) (entries : List String)
    (h1 : ¬ entries.isEmpty = true)
    (h2 : falsyId (saveState env.ringMax st0).lastId = true) :
    bergfridWatcher env st0 entries = (seed env (saveState env.ringMax st0) entries, []) := by
  simp only [bergfridWatcher]
  rw [if_neg h1, if_pos h2]

theorem tick_eq_seed_gap (env : Env) (st0 : TState) (entries : List String)
    (h1 : ¬ entries.isEmpty = true)
    (h2 : ¬ falsyId (saveState env.ringMax st0).lastId = true)
    (h3 : (feedToBacklog entries ((saveState env.ringMax st0).lastId.getD "")).isEmpty = false ∧
      (feedToBacklog entries ((saveState env.ringMax st0).lastId.getD "")).length = entries.length) :
    bergfridWatcher env st0 entries = (seed env (saveState env.ringMax st0) entries, []) := by
  simp only [bergfridWatcher]
  rw [if_neg h1, if_neg h2, if_pos h3]

theorem tick_eq_catchup (env : Env) (st0 : TState) (entries : List String)
    (h1 : ¬ entries.isEmpty = true)
    (h2 : ¬ falsyId (saveState env.ringMax st0).lastId = true)
    (h3 : ¬ ((feedToBacklog entries ((saveState env.ringMax st0).lastId.getD "")).isEmpty = false ∧
      (feedToBacklog entries ((saveState env.ringMax st0).lastId.getD "")).length = entries.length))
    (h4 : (feedToBacklog entries ((saveState env.ringMax st0).lastId.getD "")).isEmpty = true) :
    bergfridWatcher env st0 entries =
      catchup env (saveState env.ringMax st0) entries := by
  simp only [bergfridWatcher]
  rw [if_neg h1, if_neg h2, if_neg h3, if_pos h4]

theorem tick_eq_main (env : Env) (st0 : TState) (entries : List String)
    (h1 : ¬ entries.isEmpty = true)
    (h2 : ¬ falsyId (saveState env.ringMax st0).lastId = true)
    (h3 : ¬ ((feedToBacklog entries ((saveState env.ringMax st0).lastId.getD "")).isEmpty = false ∧
      (feedToBacklog entries ((saveState env.ringMax st0).lastId.getD "")).length = entries.length))
    (h4 : ¬ (feedToBacklog entries ((saveState env.ringMax st0).lastId.getD "")).isEmpty = true) :
    bergfridWatcher env st0 entries =
      (if (runBacklog env (((feedToBacklog entries
            ((saveState env.ringMax st0).lastId.getD "")).take env.maxBacklog).reverse)
          (saveState env.ringMax st0)).2.2 = true
       then
        ((catchup env (runBacklog env (((feedToBacklog entries
            ((saveState env.ringMax st0).lastId.getD "")).take env.maxBacklog).reverse)
            (saveState env.ringMax st0)).1 entries).1,
         (runBacklog env (((feedToBacklog entries
            ((saveState env.ringMax st0).lastId.getD "")).take env.maxBacklog).reverse)
            (saveState env.ringMax st0)).2.1 ++
         (catchup env (runBacklog env (((feedToBacklog entries
            ((saveState env.ringMax st0).lastId.getD "")).take env.maxBacklog).reverse)
            (saveState env.ringMax st0)).1 entries).2)
       else
        ((runBacklog env (((feedToBacklog entries
            ((saveState env.ringMax st0).lastId.getD "")).take env.maxBacklog).reverse)
            (saveState env.ringMax st0)).1,
         (runBacklog env (((feedToBacklog entries
            ((saveState env.ringMax st0).lastId.getD "")).take env.maxBacklog).reverse)
            (saveState env.ringMax st0)).2.1)) := by
  simp only [bergfridWatcher]
  rw [if_neg h1, if_neg h2, if_neg h3, if_neg h4]

/-! ### Claim theorems: dispatch orchestration -/

/-- C1: in any tick, every recorded `publish` call -- in the backlog
loop and in catch-up reconciliation alike -- is made in a state where
the item's identifier is absent from the destination's sent set at the
moment the item is considered; an identifier already present is never
published again. -/
theorem C1_idempotent (env : Env) (st0 : TState) (entries : List String) :
    ∀ c ∈ (bergfridWatcher env st0 entries).2,
      sentHas c.atState c.platform c.eid = false := by
  intro c hc
  by_cases h1 : entries.isEmpty = true
  · rw [tick_eq_empty env st0 entries h1] at hc
    simp at hc
  · by_cases h2 : falsyId (saveState env.ringMax st0).lastId = true
    · rw [tick_eq_seed_cold env st0 entries h1 h2] at hc
      simp at hc
    · by_cases h3 : (feedToBacklog entries
          ((saveState env.ringMax st0).lastId.getD "")).isEmpty = false ∧
          (feedToBacklog entries
            ((saveState env.ringMax st0).lastId.getD "")).length = entries.length
      · rw [tick_eq_seed_gap env st0 entries h1 h2 h3] at hc
        simp at hc
      · by_cases h4 : (feedToBacklog entries
            ((saveState env.ringMax st0).lastId.getD "")).isEmpty = true
        · rw [tick_eq_catchup env st0 entries h1 h2 h3 h4] at hc
          exact (catchup_calls env _ entries c hc).2.2.2.1
        · rw [tick_eq_main env st0 entries h1 h2 h3 h4] at hc
          by_cases h5 : (runBacklog env (((feedToBacklog entries
              ((saveState env.ringMax st0).lastId.getD "")).take env.maxBacklog).reverse)
              (saveState env.ringMax st0)).2.2 = true
          · rw [if_pos h5] at hc
            simp only at hc
            rcases List.mem_append.mp hc with hc2 | hc2
            · exact (runBacklog_calls env _ _ c hc2).2.2.2
            · exact (catchup_calls env _ entries c hc2).2.2.2.1
          · rw [if_neg h5] at hc
            exact (runBacklog_calls env _ _ c hc).2.2.2

/-- C1 witness: a tick over feed `[b, a]` with cursor `a` makes its
first `publish` call for `(discord, b)` in a state not containing `b`. -/
theorem C1_witness :
    sentHas (saveState envU.ringMax stA) "discord" "b" = false :=
  C1_idempotent envU stA entsBA ⟨"discord", "b", saveState envU.ringMax stA⟩
    (mem_of_head?_eq _ _ rfl)

/-- C2: in the backlog loop, the processed items split into a
fully-resolved prefix `done` -- the cursor advances through exactly its
identifiers, in order -- and a suffix `rest`; the loop completes iff
`rest` is empty, every item of `done` ends the loop marked sent (or
already sent at loop entry) on every enabled destination, and when
`rest` is nonempty its head failed on some enabled destination, the
cursor does not advance to it, no call is made for anything after it,
and no other identifier's sent status changes -- so no item
feed-ordered after a failed item is marked sent in that tick.
(Hypotheses: the configured publishers are distinct, and the ledger
plus this backlog fits inside the sent ring, so no eviction occurs.) -/
theorem C2_cursor_gate (env : Env) (st : TState) (items : List String)
    (hnd : (pubNames env).Nodup)
    (hb : ∀ q, (st.sent q).length + items.length ≤ env.ringMax) :
    ∃ done rest, items = done ++ rest ∧
      (done = [] → (runBacklog env items st).1.lastId = st.lastId) ∧
      (∀ eL, done.getLast? = some eL → (runBacklog env items st).1.lastId = some eL) ∧
      (∀ e2 ∈ done, ∀ d ∈ enabledDests env,
        sentHas (runBacklog env items st).1 d e2 = true ∨ sentHas st d e2 = true) ∧
      ((runBacklog env items st).2.2 = rest.isEmpty) ∧
      (∀ e2 rest2, rest = e2 :: rest2 →
        (∃ d ∈ enabledDests env, sentHas (runBacklog env items st).1 d e2 = false ∧
          sentHas st d e2 = false) ∧
        (∀ c ∈ (runBacklog env items st).2.1, c.eid ∈ done ∨ c.eid = e2) ∧
        (∀ d x, x ∉ done → ¬ x = e2 →
          sentHas (runBacklog env items st).1 d x = sentHas st d x)) := by
  obtain ⟨done, rest, hsplit, hB, hC, hD, hE, hF⟩ := runBacklog_master env hnd items st hb
  refine ⟨done, rest, hsplit, hB, hC, ?_, hE, ?_⟩
  · intro e2 he2 d hd
    rcases hD e2 he2 d hd with h | h
    · exact Or.inl ((sentHas_true_iff _ d e2).mpr h)
    · exact Or.inr ((sentHas_true_iff st d e2).mpr h)
  · intro e2 rest2 hrest
    obtain ⟨⟨d, hd, hn1, hn2⟩, hcalls, hpres⟩ := hF e2 rest2 hrest
    refine ⟨⟨d, hd, (sentHas_false_iff _ d e2).mpr hn1,
      (sentHas_false_iff st d e2).mpr hn2⟩, hcalls, ?_⟩
    intro d2 x hxd hxe
    have hiff := hpres d2 x hxd hxe
    cases hs : sentHas st d2 x with
    | true =>
      exact (sentHas_true_iff _ d2 x).mpr (hiff.mpr ((sentHas_true_iff st d2 x).mp hs))
    | false =>
      have hnot : x ∉ st.sent d2 := (sentHas_false_iff st d2 x).mp hs
      exact (sentHas_false_iff _ d2 x).mpr (fun hmem => hnot (hiff.mp hmem))

/-- C2 witness: one backlog item `b` where discord succeeds and
telegram fails: the split is `done = []`, `rest = [b]`. -/
theorem C2_witness :
    ∃ done rest, ["b"] = done ++ rest ∧
      (done = [] → (runBacklog envF ["b"] stA).1.lastId = stA.lastId) ∧
      (∀ eL, done.getLast? = some eL → (runBacklog envF ["b"] stA).1.lastId = some eL) ∧
      (∀ e2 ∈ done, ∀ d ∈ enabledDests envF,
        sentHas (runBacklog envF ["b"] stA).1 d e2 = true ∨ sentHas stA d e2 = true) ∧
      ((runBacklog envF ["b"] stA).2.2 = rest.isEmpty) ∧
      (∀ e2 rest2, rest = e2 :: rest2 →
        (∃ d ∈ enabledDests envF, sentHas (runBacklog envF ["b"] stA).1 d e2 = false ∧
          sentHas stA d e2 = false) ∧
        (∀ c ∈ (runBacklog envF ["b"] stA).2.1, c.eid ∈ done ∨ c.eid = e2) ∧
        (∀ d x, x ∉ done → ¬ x = e2 →
          sentHas (runBacklog envF ["b"] stA).1 d x = sentHas stA d x)) :=
  C2_cursor_gate envF stA ["b"] (by decide)
    (fun q => by show 0 + 1 ≤ 50; omega)

/-- C4: with an unset cursor and a nonempty feed that fits inside the
sent ring, the tick cold-start seeds: zero publish calls, the cursor
set to the newest entry's identifier, and every visible entry marked
already-sent for every enabled destination with a configured
publisher. -/
theorem C4_cold_start (env : Env) (st0 : TState) (entries : List String)
    (hnd : (pubNames env).Nodup)
    (hcur : st0.lastId = none) (hne : ¬ entries = [])
    (hb : ∀ q, (st0.sent q).length + entries.length ≤ env.ringMax) :
    (bergfridWatcher env st0 entries).2 = [] ∧
    (bergfridWatcher env st0 entries).1.lastId = entries.head? ∧
    ∀ p ∈ enabledDests env, ∀ e ∈ entries,
      sentHas (bergfridWatcher env st0 entries).1 p e = true := by
  have h1 : ¬ entries.isEmpty = true := by
    cases entries with
    | nil => exact absurd rfl hne
    | cons a l => simp
  have h2 : falsyId (saveState env.ringMax st0).lastId = true := by
    rw [saveState_lastId, hcur]
    rfl
  rw [tick_eq_seed_cold env st0 entries h1 h2]
  have hndE : (enabledDests env).Nodup := hnd.filter _
  have hbS : ∀ q, ((saveState env.ringMax st0).sent q).length + entries.length
      ≤ env.ringMax := by
    intro q
    have ha := saveState_sent_length_le env.ringMax st0 q
    have hc := hb q
    omega
  refine ⟨rfl, ?_, ?_⟩
  · cases entries with
    | nil => exact absurd rfl hne
    | cons e rest => rw [seed_lastId]; rfl
  · intro p hp e he
    rw [sentHas_true_iff]
    have hmark : e ∈ ((entries.foldl (fun s3 e2 => (enabledDests env).foldl
        (fun s2 p2 => sentAdd env.ringMax s2 p2 e2) s3)
        (saveState env.ringMax st0)).sent p) :=
      entriesFold_marks env hndE entries _ hbS e he p hp
    have hlen : ((entries.foldl (fun s3 e2 => (enabledDests env).foldl
        (fun s2 p2 => sentAdd env.ringMax s2 p2 e2) s3)
        (saveState env.ringMax st0)).sent p).length ≤ env.ringMax := by
      have ha := entriesFold_length env hndE entries (saveState env.ringMax st0) p
      have hc := hbS p
      omega
    cases entries with
    | nil => cases he
    | cons e2 rest =>
      show e ∈ (seed env (saveState env.ringMax st0) (e2 :: rest)).sent p
      unfold seed
      simp only
      have heq := saveState_sent_of_le env.ringMax
        ⟨some e2, ((e2 :: rest).foldl (fun s3 e3 => (enabledDests env).foldl
          (fun s2 p2 => sentAdd env.ringMax s2 p2 e3) s3)
          (saveState env.ringMax st0)).sent⟩ p hlen
      rw [heq]
      exact hmark

/-- C4 witness: cold start over feed `[b, a]` with both core platforms
enabled. -/
theorem C4_witness :
    (bergfridWatcher envU stCold entsBA).2 = [] ∧
    (bergfridWatcher envU stCold entsBA).1.lastId = entsBA.head? ∧
    ∀ p ∈ enabledDests envU, ∀ e ∈ entsBA,
      sentHas (bergfridWatcher envU stCold entsBA).1 p e = true :=
  C4_cold_start envU stCold entsBA (by decide) rfl (by decide)
    (fun q => by show 0 + 2 ≤ 50; omega)

/-- C5: across one tick with a set, non-empty cursor, the cursor ends
either unchanged or equal to one of the identifiers of the current
backlog -- entries strictly newer than (feed-ordered before) the
cursor's position, or the whole visible window when the cursor is not
found in it; it never moves to an older identifier. -/
theorem C5_cursor_monotone (env : Env) (st0 : TState) (entries : List String)
    (L : String) (hL : st0.lastId = some L) (hne : ¬ L = "") :
    (bergfridWatcher env st0 entries).1.lastId = some L ∨
    ∃ e ∈ feedToBacklog entries L,
      (bergfridWatcher env st0 entries).1.lastId = some e := by
  have hsave : (saveState env.ringMax st0).lastId = some L := by
    rw [saveState_lastId, hL]
  have hgetD : (saveState env.ringMax st0).lastId.getD "" = L := by
    rw [hsave]
    rfl
  by_cases h1 : entries.isEmpty = true
  · rw [tick_eq_empty env st0 entries h1]
    exact Or.inl hsave
  · have h2 : ¬ falsyId (saveState env.ringMax st0).lastId = true := by
      rw [hsave]
      simp [falsyId, hne]
    by_cases h3 : (feedToBacklog entries
        ((saveState env.ringMax st0).lastId.getD "")).isEmpty = false ∧
        (feedToBacklog entries
          ((saveState env.ringMax st0).lastId.getD "")).length = entries.length
    · rw [tick_eq_seed_gap env st0 entries h1 h2 h3]
      rw [hgetD] at h3
      cases entries with
      | nil => simp at h1
      | cons e rest =>
        right
        by_cases hEL : e = L
        · exfalso
          have hfb : feedToBacklog (e :: rest) L = [] := by
            unfold feedToBacklog
            rw [if_pos hEL]
          rw [hfb] at h3
          simp at h3
        · have hfb : feedToBacklog (e :: rest) L = e :: feedToBacklog rest L := by
            simp only [feedToBacklog]
            rw [if_neg hEL]
          refine ⟨e, ?_, seed_lastId env _ e rest⟩
          rw [hfb]
          exact List.mem_cons_self e _
    · by_cases h4 : (feedToBacklog entries
          ((saveState env.ringMax st0).lastId.getD "")).isEmpty = true
      · rw [tick_eq_catchup env st0 entries h1 h2 h3 h4]
        left
        rw [catchup_lastId]
        exact hsave
      · rw [tick_eq_main env st0 entries h1 h2 h3 h4]
        have hRB := runBacklog_lastId env (((feedToBacklog entries
          ((saveState env.ringMax st0).lastId.getD "")).take env.maxBacklog).reverse)
          (saveState env.ringMax st0)
        by_cases h5 : (runBacklog env (((feedToBacklog entries
            ((saveState env.ringMax st0).lastId.getD "")).take env.maxBacklog).reverse)
            (saveState env.ringMax st0)).2.2 = true
        · rw [if_pos h5]
          simp only
          rw [catchup_lastId]
          rcases hRB with h | ⟨e, he, h⟩
          · left
            rw [h]
            exact hsave
          · right
            refine ⟨e, ?_, h⟩
            rw [hgetD] at he
            exact List.take_subset _ _ (List.mem_reverse.mp he)
        · rw [if_neg h5]
          simp only
          rcases hRB with h | ⟨e, he, h⟩
          · left
            rw [h]
            exact hsave
          · right
            refine ⟨e, ?_, h⟩
            rw [hgetD] at he
            exact List.take_subset _ _ (List.mem_reverse.mp he)

/-- C5 witness: cursor `a`, feed `[b, a]`, every publish succeeding. -/
theorem C5_witness :
    (bergfridWatcher envU stA entsBA).1.lastId = some "a" ∨
    ∃ e ∈ feedToBacklog entsBA "a",
      (bergfridWatcher envU stA entsBA).1.lastId = some e :=
  C5_cursor_monotone envU stA entsBA "a" rfl (by decide)

/-- C6 counterexample: with only telegram enabled and `e1` marked sent
solely for the (configured but disabled) discord platform, catch-up
still attempts delivery of `e1` to telegram -- although no *other
enabled* destination has it marked sent, since telegram is the only
enabled destination.  The code's `sent_elsewhere` check ranges over all
configured publishers, not over the enabled ones. -/
theorem C6_counterexample :
    ((catchup envTg stC6 entsE1).2.map fun c => (c.platform, c.eid))
      = [("telegram", "e1")] ∧
    enabledDests envTg = ["telegram"] ∧
    sentHas stC6 "discord" "e1" = true := by
  exact ⟨rfl, rfl, rfl⟩

/-- C6 (amended): catch-up scans only the fixed window of the most
recent feed items, and attempts delivery of an item to a destination
only when that destination is enabled with a configured publisher, has
not marked the item sent at the moment it is considered (so a
destination that already has the item is never sent it again), and at
least one *other configured publisher -- enabled or not --* has marked
it sent. -/
theorem C6_catchup_guard (env : Env) (st : TState) (entries : List String) :
    ∀ c ∈ (catchup env st entries).2,
      c.eid ∈ entries.take CATCHUP_WINDOW ∧
      c.platform ∈ enabledDests env ∧
      sentHas c.atState c.platform c.eid = false ∧
      ∃ o ∈ pubNames env, ¬ o = c.platform ∧ sentHas c.atState o c.eid = true := by
  intro c hc
  obtain ⟨h1, h2, h3, h4, h5⟩ := catchup_calls env st entries c hc
  refine ⟨h1, (mem_enabledDests env c.platform).mpr ⟨h2, h3⟩, h4, ?_⟩
  rw [List.any_eq_true] at h5
  obtain ⟨o, ho, hcond⟩ := h5
  rw [Bool.and_eq_true] at hcond
  refine ⟨o, ho, ?_, hcond.2⟩
  have hne := hcond.1
  simpa using hne

/-- C6 witness: the catch-up attempt of `e1` to lagging telegram, with
discord having delivered it earlier. -/
theorem C6_witness :
    "e1" ∈ entsE1.take CATCHUP_WINDOW ∧
    "telegram" ∈ enabledDests envTg ∧
    sentHas stC6 "telegram" "e1" = false ∧
    ∃ o ∈ pubNames envTg, ¬ o = "telegram" ∧ sentHas stC6 o "e1" = true :=
  C6_catchup_guard envTg stC6 entsE1 ⟨"telegram", "e1", stC6⟩
    (mem_of_head?_eq _ _ rfl)

end Bergfrid
